import Mathlib

/-!
Verification of the MOOD splitter (`mood/splitter.py`).

The file embeds, as Lean definitions, the algorithmic core of the source:
the cluster-group bookkeeping shared by `PerimeterSplit._iter_indices` and
`MaxDissimilaritySplit._iter_indices` (numpy `unique(..., axis=0)` with
`return_inverse`, `flatnonzero`, pairwise euclidean distances, `argsort`,
`argmax`, `tril_indices`), the greedy loops of both splitters, the scoring
function `MOODSplitter.score_representativeness`, and the fit/accessor state
machine of `MOODSplitter`.

External collaborators that are not part of the repository are modelled from
their documented behaviour, at the call boundary the source uses:
the clustering output of scikit-learn enters the trial functions as the per-sample
center matrix (the trials are quantified over every possible clustering
output), `_validate_shuffle_split` enters as the precomputed `n_train` /
`n_test` numbers, the scipy `gaussian_kde` is an abstract density-estimator
parameter, and `scipy.spatial.distance.jensenshannon` is written out from its
documentation (the Jensen-Shannon distance, i.e. the square root of the
Jensen-Shannon divergence).

Real-valued comparisons (`argsort`/`argmax` over euclidean distances) use the
classical order on `ℝ`, so those definitions are noncomputable; concrete
evaluations in witnesses reduce them symbolically.
-/

namespace MoodSplit

/-! ## Definitions: numpy primitives, splitter trials, scoring, fit state machine -/

/-- Lexicographic row comparison used to model the row order of
`np.unique(..., axis=0)`, which returns the distinct rows in sorted order. -/
def rowLe : List ℚ → List ℚ → Bool
  | [], _ => true
  | _ :: _, [] => false
  | x :: xs, y :: ys => if x < y then true else if y < x then false else rowLe xs ys

/-- Model of `np.unique(centers, axis=0)`: the distinct rows, in sorted order. -/
def npUniqueRows (xs : List (List ℚ)) : List (List ℚ) :=
  List.insertionSort (fun a b => rowLe a b = true) xs.dedup

/-- Model of `np.unique(l)` on an integer vector: distinct values in ascending
order (used for `groups_set = np.unique(group_indices)`). -/
def npUniqueNat (l : List ℕ) : List ℕ :=
  List.insertionSort (· ≤ ·) l.dedup

/-- Model of the `return_inverse` output of `np.unique(centers, axis=0)`:
for each sample, the position of its row among the distinct sorted rows. -/
def groupIndicesOf (xs : List (List ℚ)) : List ℕ :=
  xs.map fun r => @List.indexOf (List ℚ) instBEqOfDecidableEq r (npUniqueRows xs)

/-- Model of `np.flatnonzero(group_indices == g)`: the (ascending) sample
indices whose group index equals `g`. -/
def membersOf (idx : List ℕ) (g : ℕ) : List ℕ :=
  (List.range idx.length).filter fun n => idx.getD n 0 == g

/-- Squared euclidean distance between two feature rows (exact, rational). -/
def sqDist (a b : List ℚ) : ℚ :=
  ((List.zipWith (fun x y => x - y) a b).map fun z => z * z).sum

/-- Euclidean distance between two feature rows, as used by
`pairwise_distances(centers, metric="euclidean")`. -/
noncomputable def euclDist (a b : List ℚ) : ℝ :=
  Real.sqrt ((sqDist a b : ℚ) : ℝ)

/-- Entry `(i, j)` of the `pairwise_distances` matrix over the de-duplicated
center rows. -/
noncomputable def distMatEntry (uniq : List (List ℚ)) (i j : ℕ) : ℝ :=
  euclDist (uniq.getD i []) (uniq.getD j [])

/-- Row-major enumeration of `np.tril_indices_from(distance_matrix, k=-1)`:
all pairs `(i, j)` with `j < i < m`, as (row, column). -/
def trilPairs (m : ℕ) : List (ℕ × ℕ) :=
  (List.range m).flatMap fun i => (List.range i).map fun j => (i, j)

/-- The strictly-lower-triangle pairs sorted by center distance, largest
first: the source argsorts `distance_matrix[tril_indices]` ascending and
walks it in reverse.  The numpy default argsort is not stable, so the order
among equal distances is unspecified there; this model fixes the stable
descending order. -/
noncomputable def perimeterSortedPairs (uniq : List (List ℚ)) : List (ℕ × ℕ) :=
  @List.insertionSort _
    (fun p q => distMatEntry uniq q.1 q.2 ≤ distMatEntry uniq p.1 p.2)
    (fun p q => Real.decidableLE _ _)
    (trilPairs uniq.length)

/-- The greedy pair-consumption loop of `PerimeterSplit._iter_indices`
(lines 394-410): walk the pair list; stop as soon as the test set holds
`n_test` samples; a pair whose two groups are both unassigned moves both
whole groups into the test set. -/
def perimeterLoop (mem : ℕ → List ℕ) (nTest : ℕ) :
    List (ℕ × ℕ) → List ℕ → List ℕ → List ℕ × List ℕ
  | [], test, remaining => (test, remaining)
  | p :: rest, test, remaining =>
    if nTest ≤ test.length then (test, remaining)
    else if p.1 ∈ remaining ∧ p.2 ∈ remaining then
      perimeterLoop mem nTest rest (test ++ mem p.1 ++ mem p.2)
        ((remaining.erase p.1).erase p.2)
    else perimeterLoop mem nTest rest test remaining

/-- One trial of `PerimeterSplit._iter_indices` (lines 376-416), starting
from the per-sample cluster-center matrix returned by the (external)
k-means step.  Returns `(train_indices, test_indices)`. -/
noncomputable def perimeterTrial (xs : List (List ℚ)) (nTest : ℕ) :
    List ℕ × List ℕ :=
  let uniq := npUniqueRows xs
  let idx := groupIndicesOf xs
  let groupsSet := npUniqueNat idx
  let mem := fun i => membersOf idx (groupsSet.getD i 0)
  let res := perimeterLoop mem nTest (perimeterSortedPairs uniq) [] groupsSet
  (res.2.flatMap mem, res.1)

/-- Size of the largest de-duplicated cluster group. -/
def maxGroupSize (xs : List (List ℚ)) : ℕ :=
  ((List.range (npUniqueRows xs).length).map fun g =>
    (membersOf (groupIndicesOf xs) g).length).foldr max 0

/-- Model of `np.argmax`: index of the first occurrence of the maximum
(0 on an empty vector, where numpy raises instead; never used empty). -/
noncomputable def npArgmax : List ℝ → ℕ
  | [] => 0
  | [_] => 0
  | x :: y :: ys =>
    if (y :: ys).getD (npArgmax (y :: ys)) 0 ≤ x then 0 else npArgmax (y :: ys) + 1

/-- Model of `np.argsort`: the positions `0..len-1` sorted by value,
ascending.  The numpy default argsort is not stable, so the order among equal
values is unspecified there; this model fixes the stable ascending order. -/
noncomputable def npArgsort (l : List ℝ) : List ℕ :=
  @List.insertionSort _ (fun a b => l.getD a 0 ≤ l.getD b 0)
    (fun a b => Real.decidableLE _ _) (List.range l.length)

/-- Column mean `distance_matrix.mean(axis=0)` of the pairwise center
distances. -/
noncomputable def colMean (uniq : List (List ℚ)) (j : ℕ) : ℝ :=
  (((List.range uniq.length).map fun i => distMatEntry uniq i j).sum) / uniq.length

/-- Line 472: the initial test cluster is the one with the highest mean
distance to all other clusters. -/
noncomputable def testAnchorIdx (uniq : List (List ℚ)) : ℕ :=
  npArgmax ((List.range uniq.length).map fun j => colMean uniq j)

/-- Line 476: the initial train cluster is the one furthest from the initial
test cluster. -/
noncomputable def trainAnchorIdx (uniq : List (List ℚ)) : ℕ :=
  npArgmax ((List.range uniq.length).map fun j =>
    distMatEntry uniq (testAnchorIdx uniq) j)

/-- The train-growth loop of `MaxDissimilaritySplit._iter_indices`
(lines 483-492): walk the groups in ascending distance from the train
anchor; stop once the train set holds `n_train` samples; skip the two
anchors; otherwise append the whole group to the train set. -/
def maxDissimGrow (mem : ℕ → List ℕ) (nTrain trainIdx testIdx : ℕ) :
    List ℕ → List ℕ → List ℕ
  | [], train => train
  | g :: rest, train =>
    if nTrain ≤ train.length then train
    else if g = trainIdx ∨ g = testIdx then
      maxDissimGrow mem nTrain trainIdx testIdx rest train
    else maxDissimGrow mem nTrain trainIdx testIdx rest (train ++ mem g)

/-- One trial of `MaxDissimilaritySplit._iter_indices` (lines 459-498),
starting from the per-sample cluster-center matrix returned by the
(external) k-means step.  Returns `(train_indices, test_indices)`.
`n_test` is computed by the source but never used by the loop body. -/
noncomputable def maxDissimTrial (xs : List (List ℚ)) (nTrain nTest : ℕ) :
    List ℕ × List ℕ :=
  let uniq := npUniqueRows xs
  let idx := groupIndicesOf xs
  let groupsSet := npUniqueNat idx
  let testIdx := testAnchorIdx uniq
  let trainIdx := trainAnchorIdx uniq
  let mem := fun i => membersOf idx (groupsSet.getD i 0)
  let trainInit := mem trainIdx
  let testInit := mem testIdx
  let sortedGroups := npArgsort ((List.range uniq.length).map fun j =>
    distMatEntry uniq trainIdx j)
  let train := maxDissimGrow mem nTrain trainIdx testIdx sortedGroups trainInit
  let remaining := (List.range xs.length).filter fun n =>
    decide (n ∉ train) && decide (n ∉ testInit)
  (train, testInit ++ remaining)

/-- Modelled from the spec: the mean pairwise distance from group `g` to all
`M - 1` other de-duplicated groups (per the spec, the "highest mean distance to all
other groups").  The source computes `distance_matrix.mean(axis=0)`, the mean
over all `M` column entries including the zero diagonal; the two orderings
agree (`sum_filter_ne_eq` below). -/
noncomputable def meanDistToOthers (uniq : List (List ℚ)) (g : ℕ) : ℝ :=
  ((((List.range uniq.length).filter fun h => decide (h ≠ g)).map
    fun h => distMatEntry uniq h g).sum) / ((uniq.length : ℝ) - 1)

/-- Four samples whose k-means step returned the same center for every
sample, so de-duplication leaves a single group. -/
def constCenters4 : List (List ℚ) := [[0], [0], [0], [0]]

/-- Eleven samples in three cluster groups: five at center `[0]`, five at
center `[100]`, one at center `[60]`. -/
def exElevenRows : List (List ℚ) :=
  [[0], [0], [0], [0], [0], [100], [100], [100], [100], [100], [60]]

/-- Model of the scipy elementwise `rel_entr(x, y)` on the domain reached
here: `x * log(x / y)` with the convention `rel_entr(0, y) = 0`.  (The scipy
`+inf` branch for `x > 0 ≥ y` is outside that domain: the density vectors
are strictly positive.) -/
noncomputable def relEntr (x y : ℝ) : ℝ :=
  if x = 0 then 0 else x * Real.log (x / y)

/-- Modelled from the scipy documentation:
`scipy.spatial.distance.jensenshannon(p, q, base)` normalizes both vectors,
and returns the Jensen-Shannon *distance* — the square root of the
Jensen-Shannon divergence. -/
noncomputable def jensenshannon (p q : List ℝ) (base : ℝ) : ℝ :=
  let p1 := p.map fun a => a / p.sum
  let q1 := q.map fun a => a / q.sum
  let m := List.zipWith (fun a b => (a + b) / 2) p1 q1
  let js := (List.zipWith relEntr p1 m).sum + (List.zipWith relEntr q1 m).sum
  Real.sqrt (js / Real.log base / 2)

/-- Modelled from the spec: "the Jensen-Shannon divergence (base-2, bounded
in [0,1]) between the two evaluated/normalized density vectors". -/
noncomputable def jsDivergence (p q : List ℝ) : ℝ :=
  let p1 := p.map fun a => a / p.sum
  let q1 := q.map fun a => a / q.sum
  let m := List.zipWith (fun a b => (a + b) / 2) p1 q1
  let js := (List.zipWith relEntr p1 m).sum + (List.zipWith relEntr q1 m).sum
  js / Real.log 2 / 2

/-- Model of `np.min` (junk value 0 on the empty input, where numpy
raises). -/
def npMin (l : List ℚ) : ℚ := l.minimum.untop' 0

/-- Model of `np.max`. -/
def npMax (l : List ℚ) : ℚ := l.maximum.unbot' 0

/-- Model of `np.linspace(vmin, vmax, num)`: `num` evenly spaced points from
`vmin` to `vmax` inclusive. -/
def npLinspace (vmin vmax : ℚ) (num : ℕ) : List ℚ :=
  (List.range num).map fun k : ℕ => vmin + (vmax - vmin) * (k : ℚ) / ((num : ℚ) - 1)

/-- The shared evaluation grid of `score_representativeness`: `num_samples`
evenly spaced points spanning the pooled min and max of the two samples. -/
def scoreGrid (downstream_distances distances : List ℚ) (num_samples : ℕ) : List ℚ :=
  npLinspace (npMin (downstream_distances ++ distances))
    (npMax (downstream_distances ++ distances)) num_samples

/-- Source `MOODSplitter.score_representativeness`.  `kde` stands for the external
`scipy.stats.gaussian_kde` collaborator, modelled from the spec ("kernel
density estimation with automatic bandwidth selection") as an abstract
parameter mapping a sample to its density function.  The source evaluates
`kde(distances)` and `kde(downstream_distances)` on the shared grid and
returns `1 - jensenshannon(samples_downstream, samples_split, base=2)`. -/
noncomputable def score_representativeness (kde : List ℚ → ℚ → ℝ)
    (downstream_distances distances : List ℚ) (num_samples : ℕ) : ℝ :=
  1 - jensenshannon
    ((scoreGrid downstream_distances distances num_samples).map (kde downstream_distances))
    ((scoreGrid downstream_distances distances num_samples).map (kde distances)) 2

/-- Modelled from the spec (the reading under which claim C2 is stated):
identical to `score_representativeness` except that it subtracts the
Jensen-Shannon *divergence* itself rather than the scipy Jensen-Shannon
distance. -/
noncomputable def score_representativeness_spec (kde : List ℚ → ℚ → ℝ)
    (downstream_distances distances : List ℚ) (num_samples : ℕ) : ℝ :=
  1 - jsDivergence
    ((scoreGrid downstream_distances distances num_samples).map (kde downstream_distances))
    ((scoreGrid downstream_distances distances num_samples).map (kde distances))

/-- A valid scoring sample: at least two distinct values (`gaussian_kde`
rejects a sample with singular covariance). -/
def validSample (l : List ℚ) : Prop := 2 ≤ l.dedup.length

/-- A density-estimator instance used to separate the Jensen-Shannon
distance from the Jensen-Shannon divergence: the two-point sample gets the
constant density 1, any other sample a step density. -/
noncomputable def kdeStep : List ℚ → ℚ → ℝ := fun s x =>
  if s.length = 2 then 1 else if x ≤ 0 then 3 else 1

/-- Source `SplitCharacterization` (lines 47-57): a distance sample paired with a
representativeness score and a strategy label. -/
structure SplitCharacterization where
  distances : List ℝ
  representativeness : ℝ
  label : String

/-- The mutable state of a `MOODSplitter` instance after `__init__`
(lines 130-139): the candidate splitters (abstract objects of type `σ`
keyed by name), the optional downstream distance sample, and the two
result fields `_split_chars` and `_prescribed_splitter_label`, both
initially `None`. -/
structure MOODSplitterState (σ : Type) where
  splitters : List (String × σ)
  downstreamDistances : Option (List ℝ)
  splitChars : Option (List SplitCharacterization)
  prescribedLabel : Option String

/-- Source `MOODSplitter.fitted` (lines 181-183):
`self._prescribed_splitter_label is not None`. -/
def MOODSplitterState.fitted {σ : Type} (s : MOODSplitterState σ) : Bool :=
  s.prescribedLabel.isSome

/-- The `prescribed_splitter_label` property (lines 175-179): raises
`RuntimeError` when the splitter is not fitted, in which case the label is
exactly `None`. -/
def prescribed_splitter_label {σ : Type} (s : MOODSplitterState σ) :
    Except String String :=
  match s.prescribedLabel with
  | some l => Except.ok l
  | none => Except.error "The splitter has not be fitted yet"

/-- Source `get_prescribed_splitter` (lines 198-199): looks the prescribed label
up among the candidate splitters; propagates the not-fitted error. -/
def get_prescribed_splitter {σ : Type} (s : MOODSplitterState σ) : Except String σ :=
  match prescribed_splitter_label s with
  | Except.error e => Except.error e
  | Except.ok l =>
    match s.splitters.lookup l with
    | some sp => Except.ok sp
    | none => Except.error "KeyError"

/-- Source `MOODSplitter._iter_indices` (lines 262-266): raises when not fitted,
otherwise delegates index generation entirely to the prescribed splitter
(`run` stands for the delegated generator). -/
def iter_indices {σ : Type} (s : MOODSplitterState σ)
    (run : σ → List (List ℕ × List ℕ)) : Except String (List (List ℕ × List ℕ)) :=
  if s.fitted then (get_prescribed_splitter s).map run
  else Except.error "The splitter has not be fitted yet"

/-- Model of `SplitCharacterization.best` (lines 68-70): the Python `max` by score,
which keeps the first of equally scored elements; `none` on the empty list
where Python raises `ValueError`. -/
noncomputable def bestChar : List SplitCharacterization → Option SplitCharacterization
  | [] => none
  | c :: cs =>
    some (cs.foldl
      (fun cur x => if cur.representativeness < x.representativeness then x else cur) c)

/-- The per-candidate loop of `MOODSplitter.fit` (lines 226-244): candidates
are processed in order and the first raising candidate aborts the loop.
`f` stands for the loop body for one candidate — splitter iteration, k-NN
distance computation, non-finite filtering, scoring and trial merging —
which involves the external splitter and may raise. -/
def evalCandidates {σ : Type} (f : String → σ → Except String SplitCharacterization) :
    List (String × σ) → Except String (List SplitCharacterization)
  | [] => Except.ok []
  | (n, sp) :: rest =>
    match f n sp with
    | Except.error e => Except.error e
    | Except.ok c =>
      match evalCandidates f rest with
      | Except.error e => Except.error e
      | Except.ok cs => Except.ok (c :: cs)

/-- Source `MOODSplitter.fit` (lines 204-256) as a state transformer returning the
mutated state together with the raised error, if any: in Python, attribute
assignments made before an exception persist on the object.  The downstream
sample is computed (argument `computed_downstream`, standing for the
external `self._compute_distance(X_deployment, X)`) only when none is
stored (lines 215-216); the result fields are assigned only after every
candidate has been characterized (lines 248-251). -/
noncomputable def fit {σ : Type} (s : MOODSplitterState σ) (computed_downstream : List ℝ)
    (f : String → σ → Except String SplitCharacterization) :
    MOODSplitterState σ × Option String :=
  let d := s.downstreamDistances.getD computed_downstream
  let s1 := { s with downstreamDistances := some d }
  match evalCandidates f s.splitters with
  | Except.error e => (s1, some e)
  | Except.ok chars =>
    match bestChar chars with
    | none => (s1, some "max() arg is an empty sequence")
    | some c =>
      ({ s1 with splitChars := some chars, prescribedLabel := some c.label }, none)

/-- Unfit state used in the concrete fit-failure instance. -/
def failState : MOODSplitterState Unit :=
  { splitters := [("candidate", ())], downstreamDistances := none,
    splitChars := none, prescribedLabel := none }

/-- State with a stored downstream sample, used in the frame-effect
witness. -/
def storedState : MOODSplitterState Unit :=
  { splitters := [("candidate", ())], downstreamDistances := some [2],
    splitChars := none, prescribedLabel := none }

/-! ## Theorems -/

theorem mem_npUniqueRows {xs : List (List ℚ)} {r : List ℚ} :
    r ∈ npUniqueRows xs ↔ r ∈ xs := by
  unfold npUniqueRows
  rw [(List.perm_insertionSort _ xs.dedup).mem_iff, List.mem_dedup]

theorem nodup_npUniqueRows (xs : List (List ℚ)) : (npUniqueRows xs).Nodup :=
  ((List.perm_insertionSort _ xs.dedup).symm.nodup (List.nodup_dedup xs))

theorem length_groupIndicesOf (xs : List (List ℚ)) :
    (groupIndicesOf xs).length = xs.length := by
  simp [groupIndicesOf]

theorem groupIndicesOf_lt {xs : List (List ℚ)} {n : ℕ} (hn : n < xs.length) :
    (groupIndicesOf xs).getD n 0 < (npUniqueRows xs).length := by
  have hmem : xs.get ⟨n, hn⟩ ∈ npUniqueRows xs := mem_npUniqueRows.2 (xs.get_mem n hn)
  have hval : (groupIndicesOf xs).getD n 0
      = @List.indexOf (List ℚ) instBEqOfDecidableEq (xs.get ⟨n, hn⟩) (npUniqueRows xs) := by
    unfold groupIndicesOf
    rw [List.getD_eq_getElem?_getD]
    simp [List.getElem?_map, List.getElem?_eq_getElem hn]
  rw [hval]
  exact List.indexOf_lt_length.2 hmem

/-- Every position `g < M` of the distinct-row list occurs as a group index:
the inverse map of `np.unique` is surjective onto `0..M-1`. -/
theorem exists_groupIndex_eq {xs : List (List ℚ)} {g : ℕ}
    (hg : g < (npUniqueRows xs).length) : g ∈ groupIndicesOf xs := by
  have hmem : (npUniqueRows xs).get ⟨g, hg⟩ ∈ xs :=
    mem_npUniqueRows.1 ((npUniqueRows xs).get_mem g hg)
  have hidx : @List.indexOf (List ℚ) instBEqOfDecidableEq
      ((npUniqueRows xs).get ⟨g, hg⟩) (npUniqueRows xs) = g :=
    List.get_indexOf (nodup_npUniqueRows xs) _
  unfold groupIndicesOf
  exact List.mem_map.2 ⟨_, hmem, hidx⟩

theorem mem_groupIndicesOf_lt {xs : List (List ℚ)} {g : ℕ}
    (h : g ∈ groupIndicesOf xs) : g < (npUniqueRows xs).length := by
  obtain ⟨r, hr, rfl⟩ := List.mem_map.1 h
  exact List.indexOf_lt_length.2 (mem_npUniqueRows.2 hr)

/-- The `groups_set = np.unique(group_indices)` of the source is exactly
`[0, ..., M-1]` where `M` is the number of distinct de-duplicated centers. -/
theorem npUniqueNat_groupIndices (xs : List (List ℚ)) :
    npUniqueNat (groupIndicesOf xs) = List.range (npUniqueRows xs).length := by
  have hnd : (npUniqueNat (groupIndicesOf xs)).Nodup :=
    (List.perm_insertionSort _ _).symm.nodup (List.nodup_dedup _)
  have hmem : ∀ a, a ∈ npUniqueNat (groupIndicesOf xs) ↔ a ∈ groupIndicesOf xs := by
    intro a
    unfold npUniqueNat
    rw [(List.perm_insertionSort _ _).mem_iff, List.mem_dedup]
  have hperm : (npUniqueNat (groupIndicesOf xs)).Perm
      (List.range (npUniqueRows xs).length) := by
    rw [List.perm_ext_iff_of_nodup hnd (List.nodup_range _)]
    intro a
    rw [hmem, List.mem_range]
    exact ⟨mem_groupIndicesOf_lt, exists_groupIndex_eq⟩
  have hs1 : List.Sorted (· ≤ ·) (npUniqueNat (groupIndicesOf xs)) :=
    List.sorted_insertionSort _ _
  have hs2 : List.Sorted (· ≤ ·) (List.range (npUniqueRows xs).length) :=
    List.sorted_le_range _
  exact List.eq_of_perm_of_sorted hperm hs1 hs2

theorem mem_membersOf {idx : List ℕ} {g n : ℕ} :
    n ∈ membersOf idx g ↔ n < idx.length ∧ idx.getD n 0 = g := by
  simp [membersOf, List.mem_filter]

theorem nodup_membersOf (idx : List ℕ) (g : ℕ) : (membersOf idx g).Nodup :=
  (List.nodup_range _).filter _

theorem membersOf_disjoint {idx : List ℕ} {g h : ℕ} (hgh : g ≠ h) :
    ∀ n, n ∈ membersOf idx g → n ∈ membersOf idx h → False := by
  intro n h1 h2
  exact hgh ((mem_membersOf.1 h1).2 ▸ (mem_membersOf.1 h2).2 ▸ rfl)

/-- Partition lemma: mapping a duplicate-free list of keys through the
per-key member lists is a permutation of the samples whose key is in the
key list. -/
theorem flatMap_members_perm (idx : List ℕ) (gs : List ℕ) (hnd : gs.Nodup) :
    (gs.flatMap (membersOf idx)).Perm
      ((List.range idx.length).filter fun n => decide (idx.getD n 0 ∈ gs)) := by
  induction gs with
  | nil => simp
  | cons g rest ih =>
    have hgrest : g ∉ rest := (List.nodup_cons.1 hnd).1
    have hndrest : rest.Nodup := (List.nodup_cons.1 hnd).2
    have hsplit := List.filter_append_perm
      (fun n => idx.getD n 0 == g)
      ((List.range idx.length).filter fun n => decide (idx.getD n 0 ∈ g :: rest))
    have e1 : (((List.range idx.length).filter fun n =>
        decide (idx.getD n 0 ∈ g :: rest)).filter fun n => idx.getD n 0 == g)
        = membersOf idx g := by
      rw [List.filter_filter]
      unfold membersOf
      apply List.filter_congr
      intro n _
      by_cases h : idx.getD n 0 = g
      · have h1 : (idx.getD n 0 == g) = true := beq_iff_eq.2 h
        have h2 : decide (idx.getD n 0 ∈ g :: rest) = true :=
          decide_eq_true (by rw [h]; exact List.mem_cons_self g rest)
        rw [h1, h2]
        rfl
      · have h1 : (idx.getD n 0 == g) = false := beq_eq_false_iff_ne.2 h
        rw [h1, Bool.false_and]
    have e2 : (((List.range idx.length).filter fun n =>
        decide (idx.getD n 0 ∈ g :: rest)).filter fun n => !(idx.getD n 0 == g))
        = (List.range idx.length).filter fun n => decide (idx.getD n 0 ∈ rest) := by
      rw [List.filter_filter]
      apply List.filter_congr
      intro n _
      by_cases h : idx.getD n 0 = g
      · have h1 : (idx.getD n 0 == g) = true := beq_iff_eq.2 h
        have h2 : idx.getD n 0 ∉ rest := h ▸ hgrest
        rw [h1, Bool.not_true, Bool.false_and, decide_eq_false h2]
      · have h1 : (idx.getD n 0 == g) = false := beq_eq_false_iff_ne.2 h
        have h2 : (idx.getD n 0 ∈ g :: rest) ↔ idx.getD n 0 ∈ rest := by
          rw [List.mem_cons]
          exact ⟨fun hc => hc.resolve_left h, Or.inr⟩
        rw [h1, Bool.not_false, Bool.true_and, decide_eq_decide.2 h2]
    rw [e1, e2] at hsplit
    have step1 := ((ih hndrest).append_left (membersOf idx g)).trans hsplit
    have hcons : ((g :: rest).flatMap (membersOf idx))
        = membersOf idx g ++ rest.flatMap (membersOf idx) := by simp
    rw [hcons]
    exact step1

/-- Concatenating the member lists of all `M` groups enumerates every sample
exactly once. -/
theorem flatMap_members_range_perm (xs : List (List ℚ)) :
    ((List.range (npUniqueRows xs).length).flatMap
      (membersOf (groupIndicesOf xs))).Perm (List.range xs.length) := by
  have h := flatMap_members_perm (groupIndicesOf xs)
    (List.range (npUniqueRows xs).length) (List.nodup_range _)
  have hfull : ((List.range (groupIndicesOf xs).length).filter fun n =>
      decide ((groupIndicesOf xs).getD n 0 ∈ List.range (npUniqueRows xs).length))
      = List.range (groupIndicesOf xs).length := by
    apply List.filter_eq_self.2
    intro n hn
    rw [List.mem_range] at hn
    simp only [decide_eq_true_eq, List.mem_range]
    exact groupIndicesOf_lt (by rwa [length_groupIndicesOf] at hn)
  rw [hfull, length_groupIndicesOf] at h
  exact h

/-- Member lists over a duplicate-free group list concatenate without
duplicates. -/
theorem nodup_flatMap_members (idx : List ℕ) {gs : List ℕ} (hnd : gs.Nodup) :
    (gs.flatMap (membersOf idx)).Nodup := by
  induction gs with
  | nil => simp
  | cons g rest ih =>
    have hgrest : g ∉ rest := (List.nodup_cons.1 hnd).1
    have hndrest : rest.Nodup := (List.nodup_cons.1 hnd).2
    rw [List.flatMap_cons, List.nodup_append]
    refine ⟨nodup_membersOf idx g, ih hndrest, ?_⟩
    intro n hn hn2
    obtain ⟨g2, hg2, hng2⟩ := List.mem_flatMap.1 hn2
    exact membersOf_disjoint (g := g) (h := g2) (fun he => hgrest (he ▸ hg2)) n hn hng2

theorem sqDist_self (a : List ℚ) : sqDist a a = 0 := by
  unfold sqDist
  rw [List.zipWith_same]
  induction a with
  | nil => rfl
  | cons x xs ih => simpa using ih

theorem sqDist_comm (a b : List ℚ) : sqDist a b = sqDist b a := by
  induction a generalizing b with
  | nil => cases b <;> rfl
  | cons x xs ih =>
    cases b with
    | nil => rfl
    | cons y ys =>
      have hsq : (x - y) * (x - y) = (y - x) * (y - x) := by ring
      simp only [sqDist, List.zipWith_cons_cons, List.map_cons, List.sum_cons]
      rw [hsq]
      have := ih ys
      simp only [sqDist] at this
      rw [this]

theorem sqDist_nonneg (a b : List ℚ) : 0 ≤ sqDist a b := by
  unfold sqDist
  apply List.sum_nonneg
  intro z hz
  obtain ⟨w, _, rfl⟩ := List.mem_map.1 hz
  exact mul_self_nonneg w

theorem euclDist_self (a : List ℚ) : euclDist a a = 0 := by
  rw [euclDist, sqDist_self]
  simpa using Real.sqrt_zero

theorem euclDist_nonneg (a b : List ℚ) : 0 ≤ euclDist a b :=
  Real.sqrt_nonneg _

/-- Distinct rows of equal length are at strictly positive euclidean
distance. -/
theorem euclDist_pos_of_ne {a b : List ℚ} (hlen : a.length = b.length)
    (hne : a ≠ b) : 0 < euclDist a b := by
  apply Real.sqrt_pos.2
  have hq : 0 < sqDist a b := by
    rcases lt_or_eq_of_le (sqDist_nonneg a b) with h | h
    · exact h
    · exfalso
      apply hne
      clear hne
      induction a generalizing b with
      | nil => cases b with
        | nil => rfl
        | cons y ys => exact absurd hlen (by simp)
      | cons x xs ih =>
        cases b with
        | nil => exact absurd hlen (by simp)
        | cons y ys =>
          have hx : x = y ∧ sqDist xs ys = 0 := by
            have hexp : sqDist (x :: xs) (y :: ys) = (x - y) * (x - y) + sqDist xs ys := by
              simp [sqDist]
            rw [hexp] at h
            have h1 : 0 ≤ (x - y) * (x - y) := mul_self_nonneg _
            have h2 : 0 ≤ sqDist xs ys := sqDist_nonneg xs ys
            constructor
            · have : (x - y) * (x - y) = 0 := by linarith
              have := mul_self_eq_zero.1 this
              linarith
            · linarith
          have hlen2 : xs.length = ys.length := by simpa using hlen
          rw [hx.1, ih hlen2 hx.2.symm]
  exact_mod_cast hq

theorem getD_range {n i d : ℕ} (h : i < n) : (List.range n).getD i d = i := by
  rw [List.getD_eq_getElem?_getD, List.getElem?_eq_getElem (by simpa using h)]
  simp

theorem le_foldr_max {a : ℕ} {l : List ℕ} (h : a ∈ l) : a ≤ l.foldr max 0 := by
  induction l with
  | nil => cases h
  | cons x xs ih =>
    rcases List.mem_cons.1 h with rfl | hxs
    · exact le_max_left _ _
    · exact le_trans (ih hxs) (le_max_right _ _)

theorem mem_trilPairs {m : ℕ} {p : ℕ × ℕ} (h : p ∈ trilPairs m) :
    p.2 < p.1 ∧ p.1 < m := by
  obtain ⟨i, hi, hp⟩ := List.mem_flatMap.1 h
  obtain ⟨j, hj, rfl⟩ := List.mem_map.1 hp
  exact ⟨List.mem_range.1 hj, List.mem_range.1 hi⟩

theorem mem_perimeterSortedPairs {uniq : List (List ℚ)} {p : ℕ × ℕ}
    (h : p ∈ perimeterSortedPairs uniq) : p.2 < p.1 ∧ p.1 < uniq.length :=
  mem_trilPairs ((List.perm_insertionSort _ _).mem_iff.1 h)

/-- Full behaviour of the greedy pair loop: the test set extends the input by
the member lists of a duplicate-free selection `S` of groups taken from
`remaining`, and the final remaining list is what is left of `remaining`
after removing exactly `S`. -/
theorem perimeterLoop_spec (mem : ℕ → List ℕ) (nTest : ℕ) :
    ∀ (pairs : List (ℕ × ℕ)) (test rem : List ℕ),
    (∀ p ∈ pairs, p.1 ≠ p.2) → rem.Nodup →
    ∃ S : List ℕ,
      (perimeterLoop mem nTest pairs test rem).1 = test ++ S.flatMap mem
      ∧ (perimeterLoop mem nTest pairs test rem).2.Nodup
      ∧ (∀ g ∈ (perimeterLoop mem nTest pairs test rem).2, g ∈ rem)
      ∧ (∀ g ∈ S, g ∈ rem)
      ∧ (∀ g ∈ S, g ∉ (perimeterLoop mem nTest pairs test rem).2)
      ∧ S.Nodup
      ∧ (∀ g ∈ rem, g ∈ S ∨ g ∈ (perimeterLoop mem nTest pairs test rem).2)
  | [], test, rem, _, hnd => by
    refine ⟨[], by simp [perimeterLoop], ?_, ?_, by simp, by simp, by simp, ?_⟩
    · simpa [perimeterLoop] using hnd
    · simp [perimeterLoop]
    · intro g hg
      simp [perimeterLoop, hg]
  | p :: rest, test, rem, hp, hnd => by
    by_cases hstop : nTest ≤ test.length
    · refine ⟨[], ?_, ?_, ?_, by simp, by simp, by simp, ?_⟩
      · simp [perimeterLoop, hstop]
      · simpa [perimeterLoop, hstop] using hnd
      · simp [perimeterLoop, hstop]
      · intro g hg
        simp [perimeterLoop, hstop, hg]
    · by_cases hboth : p.1 ∈ rem ∧ p.2 ∈ rem
      · have hne : p.1 ≠ p.2 := hp p (List.mem_cons_self _ _)
        have hnd1 : (rem.erase p.1).Nodup := hnd.erase _
        have hnd2 : ((rem.erase p.1).erase p.2).Nodup := hnd1.erase _
        obtain ⟨S2, hS1, hS2, hS3, hS4, hS5, hS6, hS7⟩ :=
          perimeterLoop_spec mem nTest rest (test ++ mem p.1 ++ mem p.2)
            ((rem.erase p.1).erase p.2)
            (fun q hq => hp q (List.mem_cons_of_mem _ hq)) hnd2
        have heq : perimeterLoop mem nTest (p :: rest) test rem
            = perimeterLoop mem nTest rest (test ++ mem p.1 ++ mem p.2)
              ((rem.erase p.1).erase p.2) := by
          simp [perimeterLoop, hstop, hboth]
        have hp1not : p.1 ∉ (rem.erase p.1).erase p.2 := fun hmem =>
          hnd.not_mem_erase (List.erase_subset _ _ hmem)
        have hp2not : p.2 ∉ (rem.erase p.1).erase p.2 := hnd1.not_mem_erase
        refine ⟨p.1 :: p.2 :: S2, ?_, ?_, ?_, ?_, ?_, ?_, ?_⟩
        · rw [heq, hS1]
          simp [List.append_assoc]
        · rw [heq]; exact hS2
        · rw [heq]
          intro g hg
          exact List.erase_subset _ _ (List.erase_subset _ _ (hS3 g hg))
        · intro g hg
          rcases List.mem_cons.1 hg with rfl | hg2
          · exact hboth.1
          rcases List.mem_cons.1 hg2 with rfl | hg3
          · exact hboth.2
          · exact List.erase_subset _ _ (List.erase_subset _ _ (hS4 g hg3))
        · rw [heq]
          intro g hg
          rcases List.mem_cons.1 hg with rfl | hg2
          · exact fun hmem => hp1not (hS3 _ hmem)
          rcases List.mem_cons.1 hg2 with rfl | hg3
          · exact fun hmem => hp2not (hS3 _ hmem)
          · exact hS5 g hg3
        · refine List.nodup_cons.2 ⟨?_, List.nodup_cons.2 ⟨?_, hS6⟩⟩
          · intro hmem
            rcases List.mem_cons.1 hmem with he | hm
            · exact hne he
            · exact hp1not (hS4 _ hm)
          · intro hm
            exact hp2not (hS4 _ hm)
        · rw [heq]
          intro g hg
          by_cases h1 : g = p.1
          · exact Or.inl (by simp [h1])
          by_cases h2 : g = p.2
          · exact Or.inl (by simp [h2])
          · have hg2 : g ∈ (rem.erase p.1).erase p.2 :=
              (List.mem_erase_of_ne h2).2 ((List.mem_erase_of_ne h1).2 hg)
            rcases hS7 g hg2 with h | h
            · exact Or.inl (by simp [h])
            · exact Or.inr h
      · obtain ⟨S2, hS1, hS2, hS3, hS4, hS5, hS6, hS7⟩ :=
          perimeterLoop_spec mem nTest rest test rem
            (fun q hq => hp q (List.mem_cons_of_mem _ hq)) hnd
        have heq : perimeterLoop mem nTest (p :: rest) test rem
            = perimeterLoop mem nTest rest test rem := by
          simp [perimeterLoop, hstop, hboth]
        exact ⟨S2, by rw [heq]; exact hS1, by rw [heq]; exact hS2,
          by rw [heq]; exact hS3, hS4, by rw [heq]; exact hS5, hS6,
          by rw [heq]; exact hS7⟩

/-- Test-set size bound for the greedy pair loop: each consumed pair adds at
most two whole groups past a test size that was still below `n_test`. -/
theorem perimeterLoop_length (mem : ℕ → List ℕ) (nTest maxG : ℕ)
    (hmem : ∀ i, (mem i).length ≤ maxG) :
    ∀ (pairs : List (ℕ × ℕ)) (test rem : List ℕ),
    test.length ≤ nTest - 1 + 2 * maxG →
    (perimeterLoop mem nTest pairs test rem).1.length ≤ nTest - 1 + 2 * maxG
  | [], test, rem, ht => by simpa [perimeterLoop] using ht
  | p :: rest, test, rem, ht => by
    by_cases hstop : nTest ≤ test.length
    · simpa [perimeterLoop, hstop] using ht
    · by_cases hboth : p.1 ∈ rem ∧ p.2 ∈ rem
      · have hlt : test.length ≤ nTest - 1 := by omega
        have hnew : (test ++ mem p.1 ++ mem p.2).length ≤ nTest - 1 + 2 * maxG := by
          have h1 := hmem p.1
          have h2 := hmem p.2
          simp only [List.length_append]
          omega
        have heq : perimeterLoop mem nTest (p :: rest) test rem
            = perimeterLoop mem nTest rest (test ++ mem p.1 ++ mem p.2)
              ((rem.erase p.1).erase p.2) := by
          simp [perimeterLoop, hstop, hboth]
        rw [heq]
        exact perimeterLoop_length mem nTest maxG hmem rest _ _ hnew
      · have heq : perimeterLoop mem nTest (p :: rest) test rem
            = perimeterLoop mem nTest rest test rem := by
          simp [perimeterLoop, hstop, hboth]
        rw [heq]
        exact perimeterLoop_length mem nTest maxG hmem rest _ _ ht

/-- Structure of a PerimeterSplit trial: the test set is the members of a
duplicate-free selection `S` of groups, the train set is the members of the
complementary groups `R`. -/
theorem perimeterTrial_parts (xs : List (List ℚ)) (nTest : ℕ) :
    ∃ S R : List ℕ,
      (perimeterTrial xs nTest).1 = R.flatMap (membersOf (groupIndicesOf xs))
      ∧ (perimeterTrial xs nTest).2 = S.flatMap (membersOf (groupIndicesOf xs))
      ∧ S.Nodup ∧ R.Nodup
      ∧ (∀ g ∈ S, g < (npUniqueRows xs).length)
      ∧ (∀ g ∈ R, g < (npUniqueRows xs).length)
      ∧ (∀ g ∈ S, g ∉ R)
      ∧ (∀ g, g < (npUniqueRows xs).length → g ∈ S ∨ g ∈ R) := by
  have hgs : npUniqueNat (groupIndicesOf xs) = List.range (npUniqueRows xs).length :=
    npUniqueNat_groupIndices xs
  have hp : ∀ p ∈ perimeterSortedPairs (npUniqueRows xs), p.1 ≠ p.2 := by
    intro p hmem he
    have := (mem_perimeterSortedPairs hmem).1
    omega
  have hnd : (npUniqueNat (groupIndicesOf xs)).Nodup := by
    rw [hgs]; exact List.nodup_range _
  obtain ⟨S, h1, h2, h3, h4, h5, h6, h7⟩ :=
    perimeterLoop_spec
      (fun i => membersOf (groupIndicesOf xs) ((npUniqueNat (groupIndicesOf xs)).getD i 0))
      nTest (perimeterSortedPairs (npUniqueRows xs)) [] (npUniqueNat (groupIndicesOf xs))
      hp hnd
  have hmemS : ∀ g ∈ S, g < (npUniqueRows xs).length := by
    intro g hg
    have := h4 g hg
    rw [hgs, List.mem_range] at this
    exact this
  have hmemR : ∀ g ∈ (perimeterLoop
      (fun i => membersOf (groupIndicesOf xs) ((npUniqueNat (groupIndicesOf xs)).getD i 0))
      nTest (perimeterSortedPairs (npUniqueRows xs)) [] (npUniqueNat (groupIndicesOf xs))).2,
      g < (npUniqueRows xs).length := by
    intro g hg
    have := h3 g hg
    rw [hgs, List.mem_range] at this
    exact this
  have hcongr : ∀ (L : List ℕ), (∀ g ∈ L, g < (npUniqueRows xs).length) →
      L.flatMap (fun i => membersOf (groupIndicesOf xs)
        ((npUniqueNat (groupIndicesOf xs)).getD i 0))
      = L.flatMap (membersOf (groupIndicesOf xs)) := by
    intro L hL
    apply List.flatMap_congr
    intro g hg
    rw [hgs, getD_range (hL g hg)]
  refine ⟨S, _, ?_, ?_, h6, h2, hmemS, hmemR, h5, ?_⟩
  · show (perimeterLoop _ nTest (perimeterSortedPairs (npUniqueRows xs)) []
        (npUniqueNat (groupIndicesOf xs))).2.flatMap _ = _
    exact hcongr _ hmemR
  · show (perimeterLoop _ nTest (perimeterSortedPairs (npUniqueRows xs)) []
        (npUniqueNat (groupIndicesOf xs))).1 = _
    rw [h1, List.nil_append]
    exact hcongr _ hmemS
  · intro g hglt
    refine h7 g ?_
    rw [hgs, List.mem_range]
    exact hglt

/-- Coverage of a PerimeterSplit trial: train and test concatenate to a
permutation of all sample indices. -/
theorem perimeterTrial_cover (xs : List (List ℚ)) (nTest : ℕ) :
    ((perimeterTrial xs nTest).1 ++ (perimeterTrial xs nTest).2).Perm
      (List.range xs.length) := by
  obtain ⟨S, R, hR, hS, hndS, hndR, hltS, hltR, hdisj, hcov⟩ :=
    perimeterTrial_parts xs nTest
  have hperm : (R ++ S).Perm (List.range (npUniqueRows xs).length) := by
    rw [List.perm_ext_iff_of_nodup ?_ (List.nodup_range _)]
    · intro g
      rw [List.mem_append, List.mem_range]
      constructor
      · rintro (h | h)
        · exact hltR g h
        · exact hltS g h
      · intro h
        rcases hcov g h with h2 | h2
        · exact Or.inr h2
        · exact Or.inl h2
    · rw [List.nodup_append]
      exact ⟨hndR, hndS, fun a ha hb => hdisj a hb ha⟩
  have heq : (perimeterTrial xs nTest).1 ++ (perimeterTrial xs nTest).2
      = (R ++ S).flatMap (membersOf (groupIndicesOf xs)) := by
    rw [hR, hS, List.flatMap_append]
  rw [heq]
  exact (hperm.flatMap_right _).trans (flatMap_members_range_perm xs)

theorem membersOf_length_le (xs : List (List ℚ)) (i : ℕ) :
    (membersOf (groupIndicesOf xs)
      ((npUniqueNat (groupIndicesOf xs)).getD i 0)).length ≤ maxGroupSize xs := by
  rw [npUniqueNat_groupIndices]
  by_cases hM : (npUniqueRows xs).length = 0
  · have hxs : xs = [] := by
      have hlen : xs.dedup.length = 0 := by
        rw [← (List.perm_insertionSort (fun a b => rowLe a b = true) xs.dedup).length_eq]
        exact hM
      rw [← List.dedup_eq_nil]
      exact List.eq_nil_of_length_eq_zero hlen
    subst hxs
    simp [membersOf, groupIndicesOf]
  · have hv : (List.range (npUniqueRows xs).length).getD i 0 < (npUniqueRows xs).length := by
      by_cases hi : i < (npUniqueRows xs).length
      · rw [getD_range hi]; exact hi
      · rw [List.getD_eq_getElem?_getD, List.getElem?_eq_none (by simpa using hi)]
        simp
        omega
    apply le_foldr_max
    exact List.mem_map.2 ⟨_, List.mem_range.2 hv, rfl⟩

/-- Test-set size of a PerimeterSplit trial never exceeds
`n_test - 1 + 2 * (largest group size)`: the loop only consumes a pair while
the test set is still strictly below `n_test`, and a consumed pair adds two
whole groups. -/
theorem perimeterTrial_length (xs : List (List ℚ)) (nTest : ℕ) :
    (perimeterTrial xs nTest).2.length ≤ nTest - 1 + 2 * maxGroupSize xs := by
  have h := perimeterLoop_length
    (fun i => membersOf (groupIndicesOf xs) ((npUniqueNat (groupIndicesOf xs)).getD i 0))
    nTest (maxGroupSize xs) (membersOf_length_le xs)
    (perimeterSortedPairs (npUniqueRows xs)) [] (npUniqueNat (groupIndicesOf xs))
    (by simp)
  exact h

/-- C7: within any single PerimeterSplit trial, no de-duplicated cluster
group contributes samples to both the returned train and test index sets —
members of a group enter the test set only when the group is removed from the
remaining set, and the train set is built solely from groups still
remaining, so any train sample and any test sample have different group
indices. -/
theorem perimeterTrial_no_overlap (xs : List (List ℚ)) (nTest : ℕ) :
    ∀ n ∈ (perimeterTrial xs nTest).1, ∀ n2 ∈ (perimeterTrial xs nTest).2,
      (groupIndicesOf xs).getD n 0 ≠ (groupIndicesOf xs).getD n2 0 := by
  obtain ⟨S, R, hR, hS, hndS, hndR, hltS, hltR, hdisj, hcov⟩ :=
    perimeterTrial_parts xs nTest
  intro n hn n2 hn2
  rw [hR] at hn
  rw [hS] at hn2
  obtain ⟨g, hgR, hng⟩ := List.mem_flatMap.1 hn
  obtain ⟨g2, hg2S, hng2⟩ := List.mem_flatMap.1 hn2
  rw [(mem_membersOf.1 hng).2, (mem_membersOf.1 hng2).2]
  intro he
  exact hdisj g2 hg2S (he ▸ hgR)

theorem npArgmax_lt {l : List ℝ} (h : l ≠ []) : npArgmax l < l.length := by
  induction l with
  | nil => exact absurd rfl h
  | cons x xs ih =>
    cases xs with
    | nil => simp [npArgmax]
    | cons y ys =>
      rw [npArgmax]
      by_cases hc : (y :: ys).getD (npArgmax (y :: ys)) 0 ≤ x
      · rw [if_pos hc]
        simp
      · rw [if_neg hc]
        have := ih (by simp)
        simp only [List.length_cons] at this ⊢
        omega

theorem npArgmax_spec (l : List ℝ) : ∀ i < l.length,
    l.getD i 0 ≤ l.getD (npArgmax l) 0 := by
  induction l with
  | nil => intro i hi; simp at hi
  | cons x xs ih =>
    intro i hi
    cases xs with
    | nil =>
      have hzero : i = 0 := by simpa using hi
      subst hzero
      simp [npArgmax]
    | cons y ys =>
      rw [npArgmax]
      by_cases hc : (y :: ys).getD (npArgmax (y :: ys)) 0 ≤ x
      · rw [if_pos hc]
        rcases i with _ | i2
        · simp
        · have hi2 : i2 < (y :: ys).length := by simpa using hi
          have h1 : (x :: y :: ys).getD (i2 + 1) 0 = (y :: ys).getD i2 0 := by simp
          rw [h1, List.getD_cons_zero]
          exact le_trans (ih i2 hi2) hc
      · rw [if_neg hc]
        rcases i with _ | i2
        · rw [List.getD_cons_succ, List.getD_cons_zero]
          exact le_of_lt (lt_of_not_le hc)
        · rw [List.getD_cons_succ, List.getD_cons_succ]
          exact ih i2 (by simpa using hi)

theorem npArgsort_perm (l : List ℝ) : (npArgsort l).Perm (List.range l.length) :=
  List.perm_insertionSort _ _

theorem npArgsort_nodup (l : List ℝ) : (npArgsort l).Nodup :=
  (npArgsort_perm l).symm.nodup (List.nodup_range _)

theorem getD_map_range {n j : ℕ} {f : ℕ → ℝ} (h : j < n) :
    ((List.range n).map f).getD j 0 = f j := by
  rw [List.getD_eq_getElem?_getD, List.getElem?_map, List.getElem?_range h]
  rfl

/-- Full behaviour of the train-growth loop: the train set extends the seed
by the member lists of a duplicate-free selection of non-anchor groups. -/
theorem maxDissimGrow_spec (mem : ℕ → List ℕ) (nTrain trainIdx testIdx : ℕ) :
    ∀ (gs T : List ℕ), gs.Nodup → (∀ g ∈ gs, g ∉ T) → T.Nodup →
    ∃ U : List ℕ,
      maxDissimGrow mem nTrain trainIdx testIdx gs ((trainIdx :: T).flatMap mem)
        = (trainIdx :: (T ++ U)).flatMap mem
      ∧ (∀ g ∈ U, g ∈ gs ∧ g ≠ trainIdx ∧ g ≠ testIdx)
      ∧ (T ++ U).Nodup
  | [], T, _, _, hndT => ⟨[], by simp [maxDissimGrow], by simp, by simpa using hndT⟩
  | g :: rest, T, hnd, hdisj, hndT => by
    have hndrest : rest.Nodup := (List.nodup_cons.1 hnd).2
    have hgrest : g ∉ rest := (List.nodup_cons.1 hnd).1
    by_cases hstop : nTrain ≤ ((trainIdx :: T).flatMap mem).length
    · refine ⟨[], ?_, by simp, by simpa using hndT⟩
      rw [maxDissimGrow, if_pos hstop]
      simp
    · by_cases hskip : g = trainIdx ∨ g = testIdx
      · obtain ⟨U, h1, h2, h3⟩ := maxDissimGrow_spec mem nTrain trainIdx testIdx rest T
          hndrest (fun a ha => hdisj a (List.mem_cons_of_mem _ ha)) hndT
        refine ⟨U, ?_, fun a ha => ⟨List.mem_cons_of_mem _ (h2 a ha).1,
          (h2 a ha).2.1, (h2 a ha).2.2⟩, h3⟩
        rw [maxDissimGrow, if_neg hstop, if_pos hskip]
        exact h1
      · have hgT : g ∉ T := hdisj g (List.mem_cons_self _ _)
        have hndT2 : (T ++ [g]).Nodup := by
          rw [List.nodup_append]
          exact ⟨hndT, List.nodup_singleton g,
            fun a haT hag => hgT ((List.mem_singleton.1 hag) ▸ haT)⟩
        have hdisj2 : ∀ a ∈ rest, a ∉ T ++ [g] := by
          intro a ha
          rw [List.mem_append, List.mem_singleton]
          rintro (haT | rfl)
          · exact hdisj a (List.mem_cons_of_mem _ ha) haT
          · exact hgrest ha
        obtain ⟨U, h1, h2, h3⟩ := maxDissimGrow_spec mem nTrain trainIdx testIdx rest
          (T ++ [g]) hndrest hdisj2 hndT2
        refine ⟨g :: U, ?_, ?_, ?_⟩
        · rw [maxDissimGrow, if_neg hstop, if_neg hskip]
          have hshape : (trainIdx :: T).flatMap mem ++ mem g
              = (trainIdx :: (T ++ [g])).flatMap mem := by
            simp [List.flatMap_append, List.append_assoc]
          rw [hshape, h1]
          simp [List.append_assoc]
        · intro a ha
          rcases List.mem_cons.1 ha with rfl | ha2
          · refine ⟨List.mem_cons_self _ _, ?_, ?_⟩
            · intro he; exact hskip (Or.inl he)
            · intro he; exact hskip (Or.inr he)
          · exact ⟨List.mem_cons_of_mem _ (h2 a ha2).1, (h2 a ha2).2.1, (h2 a ha2).2.2⟩
        · have : (T ++ ([g] ++ U)).Nodup := by
            rw [← List.append_assoc]
            exact h3
          simpa using this

/-- The two anchor positions of a MaxDissimilaritySplit trial are valid and
distinct whenever there are at least two de-duplicated centers (rows of the
rectangular center matrix). -/
theorem anchor_facts (xs : List (List ℚ)) (d : ℕ)
    (hd : ∀ r ∈ xs, r.length = d) (hM : 2 ≤ (npUniqueRows xs).length) :
    testAnchorIdx (npUniqueRows xs) < (npUniqueRows xs).length
    ∧ trainAnchorIdx (npUniqueRows xs) < (npUniqueRows xs).length
    ∧ trainAnchorIdx (npUniqueRows xs) ≠ testAnchorIdx (npUniqueRows xs) := by
  have hM0 : 0 < (npUniqueRows xs).length := by omega
  have hnn1 : (List.range (npUniqueRows xs).length).map
      (fun j => colMean (npUniqueRows xs) j) ≠ [] := by
    apply List.ne_nil_of_length_pos
    simpa using hM0
  have htest_lt : testAnchorIdx (npUniqueRows xs) < (npUniqueRows xs).length := by
    have h := npArgmax_lt hnn1
    simpa [testAnchorIdx] using h
  have hnn2 : (List.range (npUniqueRows xs).length).map
      (fun j => distMatEntry (npUniqueRows xs) (testAnchorIdx (npUniqueRows xs)) j) ≠ [] := by
    apply List.ne_nil_of_length_pos
    simpa using hM0
  have htrain_lt : trainAnchorIdx (npUniqueRows xs) < (npUniqueRows xs).length := by
    have h := npArgmax_lt hnn2
    simpa [trainAnchorIdx] using h
  refine ⟨htest_lt, htrain_lt, ?_⟩
  set M := (npUniqueRows xs).length with hMdef
  set t := testAnchorIdx (npUniqueRows xs) with ht
  have hg0 : ∃ g0, g0 < M ∧ g0 ≠ t := by
    by_cases h0 : t = 0
    · exact ⟨1, by omega, by omega⟩
    · exact ⟨0, by omega, fun he => h0 he.symm⟩
  obtain ⟨g0, hg0lt, hg0ne⟩ := hg0
  have hlen : ∀ i, (hi : i < M) → ((npUniqueRows xs).get ⟨i, hi⟩).length = d := by
    intro i hi
    exact hd _ (mem_npUniqueRows.1 ((npUniqueRows xs).get_mem i hi))
  have hgetD : ∀ i, (hi : i < M) → (npUniqueRows xs).getD i [] = (npUniqueRows xs).get ⟨i, hi⟩ := by
    intro i hi
    rw [List.getD_eq_getElem?_getD, List.getElem?_eq_getElem hi]
    rfl
  have hne_rows : (npUniqueRows xs).get ⟨t, htest_lt⟩ ≠ (npUniqueRows xs).get ⟨g0, hg0lt⟩ := by
    intro he
    have := (List.nodup_iff_injective_get.1 (nodup_npUniqueRows xs)) he
    rw [Fin.mk.injEq] at this
    exact hg0ne this.symm
  have hpos : 0 < distMatEntry (npUniqueRows xs) t g0 := by
    unfold distMatEntry
    rw [hgetD t htest_lt, hgetD g0 hg0lt]
    exact euclDist_pos_of_ne (by rw [hlen t htest_lt, hlen g0 hg0lt]) hne_rows
  intro he
  have hDtt : distMatEntry (npUniqueRows xs) t t = 0 := by
    unfold distMatEntry
    rw [hgetD t htest_lt]
    exact euclDist_self _
  have hspec := npArgmax_spec ((List.range M).map fun j => distMatEntry (npUniqueRows xs) t j)
    g0 (by simpa using hg0lt)
  rw [getD_map_range hg0lt] at hspec
  have harg : trainAnchorIdx (npUniqueRows xs)
      = npArgmax ((List.range M).map fun j => distMatEntry (npUniqueRows xs) t j) := rfl
  rw [← harg, he] at hspec
  rw [getD_map_range htest_lt, hDtt] at hspec
  exact absurd (lt_of_lt_of_le hpos hspec) (lt_irrefl 0)

theorem append_filter_not_mem_perm {C l : List ℕ} (hndC : C.Nodup)
    (hndl : l.Nodup) (hsub : ∀ a ∈ C, a ∈ l) :
    (C ++ l.filter fun a => decide (a ∉ C)).Perm l := by
  have hnd : (C ++ l.filter fun a => decide (a ∉ C)).Nodup := by
    rw [List.nodup_append]
    refine ⟨hndC, hndl.filter _, ?_⟩
    intro a haC haf
    have := List.mem_filter.1 haf
    rw [decide_eq_true_eq] at this
    exact this.2 haC
  rw [List.perm_ext_iff_of_nodup hnd hndl]
  intro a
  rw [List.mem_append, List.mem_filter, decide_eq_true_eq]
  constructor
  · rintro (h | h)
    · exact hsub a h
    · exact h.1
  · intro hl
    by_cases hC : a ∈ C
    · exact Or.inl hC
    · exact Or.inr ⟨hl, hC⟩

/-- Structure of a MaxDissimilaritySplit trial when the clustering yields at
least two distinct de-duplicated centers: the train set is seeded with the
train-anchor group and grows by whole non-anchor groups; the test set is the
test-anchor group followed by every sample in neither. -/
theorem maxDissimTrial_parts (xs : List (List ℚ)) (nTrain nTest : ℕ) (d : ℕ)
    (hd : ∀ r ∈ xs, r.length = d) (hM : 2 ≤ (npUniqueRows xs).length) :
    ∃ U : List ℕ,
      (maxDissimTrial xs nTrain nTest).1
        = (trainAnchorIdx (npUniqueRows xs) :: U).flatMap (membersOf (groupIndicesOf xs))
      ∧ (maxDissimTrial xs nTrain nTest).2
        = membersOf (groupIndicesOf xs) (testAnchorIdx (npUniqueRows xs))
          ++ (List.range xs.length).filter (fun n =>
              decide (n ∉ (maxDissimTrial xs nTrain nTest).1)
              && decide (n ∉ membersOf (groupIndicesOf xs)
                   (testAnchorIdx (npUniqueRows xs))))
      ∧ (trainAnchorIdx (npUniqueRows xs) :: U).Nodup
      ∧ (∀ g ∈ trainAnchorIdx (npUniqueRows xs) :: U, g < (npUniqueRows xs).length)
      ∧ testAnchorIdx (npUniqueRows xs) ∉ trainAnchorIdx (npUniqueRows xs) :: U := by
  obtain ⟨htest_lt, htrain_lt, hne⟩ := anchor_facts xs d hd hM
  have hgs : npUniqueNat (groupIndicesOf xs) = List.range (npUniqueRows xs).length :=
    npUniqueNat_groupIndices xs
  have hmemeq : ∀ g < (npUniqueRows xs).length,
      membersOf (groupIndicesOf xs) ((npUniqueNat (groupIndicesOf xs)).getD g 0)
        = membersOf (groupIndicesOf xs) g := by
    intro g hg
    rw [hgs, getD_range hg]
  obtain ⟨U, hU1, hU2, hU3⟩ := maxDissimGrow_spec
    (fun i => membersOf (groupIndicesOf xs) ((npUniqueNat (groupIndicesOf xs)).getD i 0))
    nTrain (trainAnchorIdx (npUniqueRows xs)) (testAnchorIdx (npUniqueRows xs))
    (npArgsort ((List.range (npUniqueRows xs).length).map fun j =>
      distMatEntry (npUniqueRows xs) (trainAnchorIdx (npUniqueRows xs)) j))
    [] (npArgsort_nodup _) (by simp) List.nodup_nil
  have hUlt : ∀ g ∈ U, g < (npUniqueRows xs).length := by
    intro g hg
    have := (hU2 g hg).1
    rw [(npArgsort_perm _).mem_iff] at this
    simpa using this
  have htr1 : (maxDissimTrial xs nTrain nTest).1
      = maxDissimGrow
        (fun i => membersOf (groupIndicesOf xs) ((npUniqueNat (groupIndicesOf xs)).getD i 0))
        nTrain (trainAnchorIdx (npUniqueRows xs)) (testAnchorIdx (npUniqueRows xs))
        (npArgsort ((List.range (npUniqueRows xs).length).map fun j =>
          distMatEntry (npUniqueRows xs) (trainAnchorIdx (npUniqueRows xs)) j))
        (membersOf (groupIndicesOf xs)
          ((npUniqueNat (groupIndicesOf xs)).getD (trainAnchorIdx (npUniqueRows xs)) 0)) := rfl
  have hseed : membersOf (groupIndicesOf xs)
      ((npUniqueNat (groupIndicesOf xs)).getD (trainAnchorIdx (npUniqueRows xs)) 0)
      = (trainAnchorIdx (npUniqueRows xs) :: ([] : List ℕ)).flatMap
        (fun i => membersOf (groupIndicesOf xs) ((npUniqueNat (groupIndicesOf xs)).getD i 0)) := by
    simp
  have htrain_eq : (maxDissimTrial xs nTrain nTest).1
      = (trainAnchorIdx (npUniqueRows xs) :: U).flatMap (membersOf (groupIndicesOf xs)) := by
    rw [htr1, hseed, hU1]
    simp only [List.nil_append]
    apply List.flatMap_congr
    intro g hg
    rcases List.mem_cons.1 hg with rfl | hgU
    · exact hmemeq _ htrain_lt
    · exact hmemeq _ (hUlt g hgU)
  refine ⟨U, htrain_eq, ?_, ?_, ?_, ?_⟩
  · have htr2 : (maxDissimTrial xs nTrain nTest).2
        = membersOf (groupIndicesOf xs)
            ((npUniqueNat (groupIndicesOf xs)).getD (testAnchorIdx (npUniqueRows xs)) 0)
          ++ (List.range xs.length).filter (fun n =>
              decide (n ∉ (maxDissimTrial xs nTrain nTest).1)
              && decide (n ∉ membersOf (groupIndicesOf xs)
                  ((npUniqueNat (groupIndicesOf xs)).getD (testAnchorIdx (npUniqueRows xs)) 0))) := rfl
    rw [htr2, hmemeq _ htest_lt]
  · rw [List.nodup_cons]
    refine ⟨fun hmem => (hU2 _ hmem).2.1 rfl, by simpa using hU3⟩
  · intro g hg
    rcases List.mem_cons.1 hg with rfl | hgU
    · exact htrain_lt
    · exact hUlt g hgU
  · intro hmem
    rcases List.mem_cons.1 hmem with he | hmem2
    · exact hne he.symm
    · exact (hU2 _ hmem2).2.2 rfl

/-- Coverage of a MaxDissimilaritySplit trial with at least two distinct
de-duplicated centers: train and test concatenate to a permutation of all
sample indices. -/
theorem maxDissimTrial_cover (xs : List (List ℚ)) (nTrain nTest : ℕ) (d : ℕ)
    (hd : ∀ r ∈ xs, r.length = d) (hM : 2 ≤ (npUniqueRows xs).length) :
    ((maxDissimTrial xs nTrain nTest).1 ++ (maxDissimTrial xs nTrain nTest).2).Perm
      (List.range xs.length) := by
  obtain ⟨U, h1, h2, hnd, hlt, hnotin⟩ := maxDissimTrial_parts xs nTrain nTest d hd hM
  have hndtrain : (maxDissimTrial xs nTrain nTest).1.Nodup := by
    rw [h1]; exact nodup_flatMap_members _ hnd
  have hndtest0 : (membersOf (groupIndicesOf xs) (testAnchorIdx (npUniqueRows xs))).Nodup :=
    nodup_membersOf _ _
  have hdisj : ∀ n ∈ (maxDissimTrial xs nTrain nTest).1,
      n ∉ membersOf (groupIndicesOf xs) (testAnchorIdx (npUniqueRows xs)) := by
    intro n hn hn2
    rw [h1] at hn
    obtain ⟨g, hg, hng⟩ := List.mem_flatMap.1 hn
    refine membersOf_disjoint ?_ n hng hn2
    intro he
    exact hnotin (he ▸ hg)
  have hC : ((maxDissimTrial xs nTrain nTest).1
      ++ membersOf (groupIndicesOf xs) (testAnchorIdx (npUniqueRows xs))).Nodup := by
    rw [List.nodup_append]
    exact ⟨hndtrain, hndtest0, hdisj⟩
  have hsubtrain : ∀ n ∈ (maxDissimTrial xs nTrain nTest).1, n ∈ List.range xs.length := by
    intro n hn
    rw [h1] at hn
    obtain ⟨g, _, hng⟩ := List.mem_flatMap.1 hn
    have := (mem_membersOf.1 hng).1
    rw [length_groupIndicesOf] at this
    exact List.mem_range.2 this
  have hsubtest : ∀ n ∈ membersOf (groupIndicesOf xs) (testAnchorIdx (npUniqueRows xs)),
      n ∈ List.range xs.length := by
    intro n hn
    have := (mem_membersOf.1 hn).1
    rw [length_groupIndicesOf] at this
    exact List.mem_range.2 this
  have hfe : ((List.range xs.length).filter (fun n =>
      decide (n ∉ (maxDissimTrial xs nTrain nTest).1)
      && decide (n ∉ membersOf (groupIndicesOf xs) (testAnchorIdx (npUniqueRows xs)))))
      = (List.range xs.length).filter (fun n =>
        decide (n ∉ (maxDissimTrial xs nTrain nTest).1
          ++ membersOf (groupIndicesOf xs) (testAnchorIdx (npUniqueRows xs)))) := by
    apply List.filter_congr
    intro n _
    by_cases ha : n ∈ (maxDissimTrial xs nTrain nTest).1
    · simp [ha]
    · by_cases hb : n ∈ membersOf (groupIndicesOf xs) (testAnchorIdx (npUniqueRows xs))
      · simp [ha, hb]
      · simp [ha, hb]
  have hperm := append_filter_not_mem_perm (l := List.range xs.length) hC
    (List.nodup_range _) (by
      intro a ha
      rcases List.mem_append.1 ha with h | h
      · exact hsubtrain a h
      · exact hsubtest a h)
  have hshape : (maxDissimTrial xs nTrain nTest).1 ++ (maxDissimTrial xs nTrain nTest).2
      = ((maxDissimTrial xs nTrain nTest).1
          ++ membersOf (groupIndicesOf xs) (testAnchorIdx (npUniqueRows xs)))
        ++ (List.range xs.length).filter (fun n =>
          decide (n ∉ (maxDissimTrial xs nTrain nTest).1
            ++ membersOf (groupIndicesOf xs) (testAnchorIdx (npUniqueRows xs)))) := by
    conv_lhs => rw [h2]
    rw [← hfe, List.append_assoc]
  rw [hshape]
  exact hperm

theorem distMatEntry_self (uniq : List (List ℚ)) (g : ℕ) :
    distMatEntry uniq g g = 0 :=
  euclDist_self _

/-- Dropping the zero diagonal entry does not change a column sum of the
pairwise distance matrix. -/
theorem sum_filter_ne_eq (uniq : List (List ℚ)) {g : ℕ} (hg : g < uniq.length) :
    (((List.range uniq.length).filter fun h => decide (h ≠ g)).map
      fun h => distMatEntry uniq h g).sum
    = ((List.range uniq.length).map fun h => distMatEntry uniq h g).sum := by
  have hsplit := List.filter_append_perm (fun h => h == g) (List.range uniq.length)
  have hfeq : (List.range uniq.length).filter (fun h => h == g) = [g] := by
    have hpred : (List.range uniq.length).filter (fun h => h == g)
        = (List.range uniq.length).filter (fun h => decide (h = g)) := by
      apply List.filter_congr
      intro h _
      by_cases he : h = g <;> simp [he]
    rw [hpred, List.filter_eq,
      List.count_eq_one_of_mem (List.nodup_range _) (List.mem_range.2 hg)]
    rfl
  have hneq : (List.range uniq.length).filter (fun h => !(h == g))
      = (List.range uniq.length).filter (fun h => decide (h ≠ g)) := by
    apply List.filter_congr
    intro h _
    by_cases he : h = g <;> simp [he]
  rw [hfeq, hneq] at hsplit
  have hsum := (hsplit.map fun h => distMatEntry uniq h g).sum_eq
  rw [List.map_append, List.sum_append] at hsum
  simp only [List.map_cons, List.map_nil, List.sum_cons, List.sum_nil,
    distMatEntry_self, zero_add] at hsum
  exact hsum

/-- The column mean over all `M` entries and the mean distance to the `M - 1`
other groups induce the same comparisons (`M ≥ 2`): one is a positive
rescaling of the other. -/
theorem meanDistToOthers_le_iff (uniq : List (List ℚ)) {g h : ℕ}
    (hM : 2 ≤ uniq.length) (hg : g < uniq.length) (hh : h < uniq.length) :
    meanDistToOthers uniq g ≤ meanDistToOthers uniq h ↔ colMean uniq g ≤ colMean uniq h := by
  have hMr : (0 : ℝ) < (uniq.length : ℝ) := by
    have : (0 : ℕ) < uniq.length := by omega
    exact_mod_cast this
  have hM1 : (0 : ℝ) < (uniq.length : ℝ) - 1 := by
    have : (1 : ℕ) < uniq.length := by omega
    have hcast : (1 : ℝ) < (uniq.length : ℝ) := by exact_mod_cast this
    linarith
  unfold meanDistToOthers colMean
  rw [sum_filter_ne_eq uniq hg, sum_filter_ne_eq uniq hh]
  rw [div_le_div_iff_of_pos_right hM1, div_le_div_iff_of_pos_right hMr]

theorem maxDissimTrial_const4 :
    maxDissimTrial constCenters4 3 1 = ([0, 1, 2, 3], [0, 1, 2, 3]) := rfl

theorem euclDist_eval {a b : List ℚ} {q : ℚ} {r : ℝ} (hq : sqDist a b = q)
    (hr : 0 ≤ r) (hqr : (q : ℝ) = r ^ 2) : euclDist a b = r := by
  rw [euclDist, hq, hqr, Real.sqrt_sq hr]

theorem npUniqueRows_ex11 : npUniqueRows exElevenRows = [[0], [60], [100]] := by
  decide

theorem perimeterSortedPairs_ex11 :
    perimeterSortedPairs (npUniqueRows exElevenRows) = [(2, 0), (1, 0), (2, 1)] := by
  have d10 : distMatEntry (npUniqueRows exElevenRows) 1 0 = 60 := by
    rw [npUniqueRows_ex11]
    exact euclDist_eval (q := 3600) (by norm_num [sqDist]) (by norm_num) (by norm_num)
  have d20 : distMatEntry (npUniqueRows exElevenRows) 2 0 = 100 := by
    rw [npUniqueRows_ex11]
    exact euclDist_eval (q := 10000) (by norm_num [sqDist]) (by norm_num) (by norm_num)
  have d21 : distMatEntry (npUniqueRows exElevenRows) 2 1 = 40 := by
    rw [npUniqueRows_ex11]
    exact euclDist_eval (q := 1600) (by norm_num [sqDist]) (by norm_num) (by norm_num)
  have htril : trilPairs (npUniqueRows exElevenRows).length = [(1, 0), (2, 0), (2, 1)] := by
    rw [npUniqueRows_ex11]
    decide
  unfold perimeterSortedPairs
  rw [htril]
  simp only [List.insertionSort, List.orderedInsert]
  rw [d21, d20, if_pos (by norm_num : (40 : ℝ) ≤ 100)]
  simp only [List.orderedInsert]
  rw [d10, d20, d21]
  norm_num

theorem perimeterTrial_ex11 :
    perimeterTrial exElevenRows 1 = ([10], [5, 6, 7, 8, 9, 0, 1, 2, 3, 4]) := by
  simp only [perimeterTrial, perimeterSortedPairs_ex11]
  decide

theorem jensenshannon_two_eq_sqrt (p q : List ℝ) :
    jensenshannon p q 2 = Real.sqrt (jsDivergence p q) := rfl

theorem minimum_perm {l1 l2 : List ℚ} (h : l1.Perm l2) : l1.minimum = l2.minimum := by
  cases hm : l1.minimum with
  | top =>
    rw [List.minimum_eq_top] at hm
    subst hm
    rw [eq_comm, List.minimum_eq_top]
    exact (h.symm.eq_nil)
  | coe m =>
    have hm2 : l1.minimum = (m : WithTop ℚ) := hm
    rw [List.minimum_eq_coe_iff] at hm2
    have hl2 : l2.minimum = (m : WithTop ℚ) := by
      rw [List.minimum_eq_coe_iff]
      exact ⟨h.mem_iff.1 hm2.1, fun a ha => hm2.2 a (h.mem_iff.2 ha)⟩
    exact hl2.symm

theorem maximum_perm {l1 l2 : List ℚ} (h : l1.Perm l2) : l1.maximum = l2.maximum := by
  cases hm : l1.maximum with
  | bot =>
    rw [List.maximum_eq_bot] at hm
    subst hm
    rw [eq_comm, List.maximum_eq_bot]
    exact (h.symm.eq_nil)
  | coe m =>
    have hm2 : l1.maximum = (m : WithBot ℚ) := hm
    rw [List.maximum_eq_coe_iff] at hm2
    have hl2 : l2.maximum = (m : WithBot ℚ) := by
      rw [List.maximum_eq_coe_iff]
      exact ⟨h.mem_iff.1 hm2.1, fun a ha => hm2.2 a (h.mem_iff.2 ha)⟩
    exact hl2.symm

theorem scoreGrid_comm (A B : List ℚ) (n : ℕ) : scoreGrid A B n = scoreGrid B A n := by
  unfold scoreGrid npMin npMax
  rw [minimum_perm (List.perm_append_comm), maximum_perm (List.perm_append_comm)]

theorem jensenshannon_comm (p q : List ℝ) (base : ℝ) :
    jensenshannon p q base = jensenshannon q p base := by
  simp only [jensenshannon]
  rw [List.zipWith_comm_of_comm _ (fun x y => by rw [add_comm]) (q.map fun a => a / q.sum)
    (p.map fun a => a / p.sum)]
  rw [add_comm ((List.zipWith relEntr (q.map fun a => a / q.sum) _).sum)]

theorem relEntr_self (a : ℝ) : relEntr a a = 0 := by
  unfold relEntr
  by_cases h : a = 0
  · rw [if_pos h]
  · rw [if_neg h, div_self h, Real.log_one, mul_zero]

theorem jensenshannon_self (v : List ℝ) (base : ℝ) : jensenshannon v v base = 0 := by
  simp only [jensenshannon]
  have hm : List.zipWith (fun a b => (a + b) / 2) (v.map fun a => a / v.sum)
      (v.map fun a => a / v.sum) = v.map fun a => a / v.sum := by
    rw [List.zipWith_same]
    have hfun : (fun a : ℝ => (a + a) / 2) = id := by
      funext a
      show (a + a) / 2 = a
      ring
    rw [hfun, List.map_id]
  rw [hm]
  have hz : (List.zipWith relEntr (v.map fun a => a / v.sum)
      (v.map fun a => a / v.sum)).sum = 0 := by
    rw [List.zipWith_same]
    apply List.sum_eq_zero
    intro x hx
    obtain ⟨a, _, rfl⟩ := List.mem_map.1 hx
    exact relEntr_self _
  rw [hz]
  norm_num

theorem sum_map_div (l : List ℝ) (c : ℝ) : (l.map fun a => a / c).sum = l.sum / c := by
  induction l with
  | nil => simp
  | cons x xs ih => simp [ih, add_div]

theorem sum_map_mul_const (l : List ℝ) (c : ℝ) : (l.map fun a => a * c).sum = l.sum * c := by
  induction l with
  | nil => simp
  | cons x xs ih => simp [ih, add_mul]

/-- Elements of `zip p (zipWith avg p q)` with positive `p` and `q`: the
first component is positive and at most twice the second. -/
theorem zip_zipWith_avg_left : ∀ (p q : List ℝ), (∀ x ∈ p, 0 < x) → (∀ x ∈ q, 0 < x) →
    ∀ pa ∈ List.zip p (List.zipWith (fun a b => (a + b) / 2) p q),
      0 < pa.1 ∧ pa.1 ≤ 2 * pa.2 ∧ 0 < pa.2
  | [], _, _, _ => by simp
  | _ :: _, [], _, _ => by simp
  | a :: p, b :: q, hp, hq => by
    intro pa hpa
    rw [List.zipWith_cons_cons, List.zip_cons_cons] at hpa
    rcases List.mem_cons.1 hpa with rfl | hrest
    · have ha : 0 < a := hp a (List.mem_cons_self _ _)
      have hb : 0 < b := hq b (List.mem_cons_self _ _)
      refine ⟨ha, by simp only; linarith, by simp only; linarith⟩
    · exact zip_zipWith_avg_left p q (fun x hx => hp x (List.mem_cons_of_mem _ hx))
        (fun x hx => hq x (List.mem_cons_of_mem _ hx)) pa hrest

/-- Same as `zip_zipWith_avg_left` with the roles of `p` and `q` swapped:
elements of `zip q (zipWith avg p q)`. -/
theorem zip_zipWith_avg_right : ∀ (p q : List ℝ), (∀ x ∈ p, 0 < x) → (∀ x ∈ q, 0 < x) →
    ∀ pa ∈ List.zip q (List.zipWith (fun a b => (a + b) / 2) p q),
      0 < pa.1 ∧ pa.1 ≤ 2 * pa.2 ∧ 0 < pa.2
  | [], _, _, _ => by simp
  | _ :: _, [], _, _ => by simp
  | a :: p, b :: q, hp, hq => by
    intro pa hpa
    rw [List.zipWith_cons_cons, List.zip_cons_cons] at hpa
    rcases List.mem_cons.1 hpa with rfl | hrest
    · have ha : 0 < a := hp a (List.mem_cons_self _ _)
      have hb : 0 < b := hq b (List.mem_cons_self _ _)
      refine ⟨hb, by simp only; linarith, by simp only; linarith⟩
    · exact zip_zipWith_avg_right p q (fun x hx => hp x (List.mem_cons_of_mem _ hx))
        (fun x hx => hq x (List.mem_cons_of_mem _ hx)) pa hrest

/-- Pointwise bound behind the `[0, 1]` range of the Jensen-Shannon
divergence: for a mixture entry at least half the density entry,
`rel_entr` is at most `log 2` times the density entry. -/
theorem relEntr_le_mul_log2 {a b : ℝ} (ha : 0 < a) (hab : a ≤ 2 * b) (hb : 0 < b) :
    relEntr a b ≤ a * Real.log 2 := by
  unfold relEntr
  rw [if_neg (ne_of_gt ha)]
  apply mul_le_mul_of_nonneg_left ?_ (le_of_lt ha)
  apply Real.log_le_log (div_pos ha hb)
  rw [div_le_iff hb]
  linarith

/-- Summing a pointwise `rel_entr` bound along the zip of a density vector
with its mixture vector. -/
theorem sum_zipWith_relEntr_le : ∀ (p m : List ℝ),
    (∀ pa ∈ List.zip p m, relEntr pa.1 pa.2 ≤ pa.1 * Real.log 2) →
    (List.zipWith relEntr p m).sum ≤ (p.map fun a => a * Real.log 2).sum ∨ m.length < p.length
  | [], m, _ => by simp
  | a :: p, [], _ => by simp
  | a :: p, b :: m, h => by
    rcases sum_zipWith_relEntr_le p m
      (fun pa hpa => h pa (by rw [List.zip_cons_cons]; exact List.mem_cons_of_mem _ hpa)) with
      ih | ih
    · left
      rw [List.zipWith_cons_cons, List.sum_cons, List.map_cons, List.sum_cons]
      have hhead := h (a, b) (by rw [List.zip_cons_cons]; exact List.mem_cons_self _ _)
      exact add_le_add hhead ih
    · right
      simpa using Nat.succ_lt_succ ih

/-- The scipy Jensen-Shannon distance is the square root of a quantity at
most 1, for positive density vectors of equal length. -/
theorem jsDivergence_le_one {p q : List ℝ} (hp : ∀ x ∈ p, 0 < x) (hq : ∀ x ∈ q, 0 < x)
    (hpn : p ≠ []) (hqn : q ≠ []) (hlen : p.length = q.length) :
    jsDivergence p q ≤ 1 := by
  have hsp : 0 < p.sum := List.sum_pos p hp hpn
  have hsq : 0 < q.sum := List.sum_pos q hq hqn
  have hp1 : ∀ x ∈ (p.map fun a => a / p.sum), 0 < x := by
    intro x hx
    obtain ⟨a, ha, rfl⟩ := List.mem_map.1 hx
    exact div_pos (hp a ha) hsp
  have hq1 : ∀ x ∈ (q.map fun a => a / q.sum), 0 < x := by
    intro x hx
    obtain ⟨a, ha, rfl⟩ := List.mem_map.1 hx
    exact div_pos (hq a ha) hsq
  have hsum_p1 : (p.map fun a => a / p.sum).sum = 1 := by
    rw [sum_map_div, div_self (ne_of_gt hsp)]
  have hsum_q1 : (q.map fun a => a / q.sum).sum = 1 := by
    rw [sum_map_div, div_self (ne_of_gt hsq)]
  have hlen1 : (p.map fun a => a / p.sum).length = (q.map fun a => a / q.sum).length := by
    simp [hlen]
  have hlog2 : (0 : ℝ) < Real.log 2 := Real.log_pos (by norm_num)
  simp only [jsDivergence]
  set p1 := p.map fun a => a / p.sum with hp1def
  set q1 := q.map fun a => a / q.sum with hq1def
  set m := List.zipWith (fun a b => (a + b) / 2) p1 q1 with hmdef
  have hmlen : m.length = p1.length := by
    rw [hmdef, List.length_zipWith, hlen1]
    exact min_self _
  have hmlen2 : m.length = q1.length := by rw [hmlen, hlen1]
  have hS1 : (List.zipWith relEntr p1 m).sum ≤ (p1.map fun a => a * Real.log 2).sum := by
    rcases sum_zipWith_relEntr_le p1 m (fun pa hpa => by
      obtain ⟨h1, h2, h3⟩ := zip_zipWith_avg_left p1 q1 hp1 hq1 pa hpa
      exact relEntr_le_mul_log2 h1 h2 h3) with h | h
    · exact h
    · rw [hmlen] at h
      exact absurd h (lt_irrefl _)
  have hS2 : (List.zipWith relEntr q1 m).sum ≤ (q1.map fun a => a * Real.log 2).sum := by
    rcases sum_zipWith_relEntr_le q1 m (fun pa hpa => by
      obtain ⟨h1, h2, h3⟩ := zip_zipWith_avg_right p1 q1 hp1 hq1 pa hpa
      exact relEntr_le_mul_log2 h1 h2 h3) with h | h
    · exact h
    · rw [hmlen2] at h
      exact absurd h (lt_irrefl _)
  rw [sum_map_mul_const, hsum_p1, one_mul] at hS1
  rw [sum_map_mul_const, hsum_q1, one_mul] at hS2
  rw [div_div, div_le_one (by positivity)]
  linarith

theorem npLinspace_length (vmin vmax : ℚ) (num : ℕ) :
    (npLinspace vmin vmax num).length = num := by
  unfold npLinspace
  rw [List.length_map, List.length_range]

theorem scoreGrid_length (A B : List ℚ) (n : ℕ) : (scoreGrid A B n).length = n :=
  npLinspace_length _ _ _

theorem scoreGrid_step : scoreGrid [0, 1] [0, 1, 1] 2 = [0, 1] := by
  have h1 : npMin (([0, 1] : List ℚ) ++ [0, 1, 1]) = 0 := by decide
  have h2 : npMax (([0, 1] : List ℚ) ++ [0, 1, 1]) = 1 := by decide
  unfold scoreGrid
  rw [h1, h2]
  unfold npLinspace
  norm_num [List.range_succ]

theorem kdeStep_vec_p : (scoreGrid [0, 1] [0, 1, 1] 2).map (kdeStep [0, 1]) = [1, 1] := by
  rw [scoreGrid_step]
  norm_num [kdeStep]

theorem kdeStep_vec_q : (scoreGrid [0, 1] [0, 1, 1] 2).map (kdeStep [0, 1, 1]) = [3, 1] := by
  rw [scoreGrid_step]
  norm_num [kdeStep]

theorem jsDivergence_step_eq : jsDivergence [(1 : ℝ), 1] [3, 1]
    = (3 * Real.log 2 - 5 / 4 * Real.log 5) / Real.log 2 / 2 := by
  have h1 : Real.log ((4 : ℝ) / 5) = 2 * Real.log 2 - Real.log 5 := by
    rw [Real.log_div (by norm_num) (by norm_num),
      show (4 : ℝ) = 2 ^ 2 by norm_num, Real.log_pow]
    push_cast
    ring
  have h2 : Real.log ((4 : ℝ) / 3) = 2 * Real.log 2 - Real.log 3 := by
    rw [Real.log_div (by norm_num) (by norm_num),
      show (4 : ℝ) = 2 ^ 2 by norm_num, Real.log_pow]
    push_cast
    ring
  have h3 : Real.log ((6 : ℝ) / 5) = Real.log 2 + Real.log 3 - Real.log 5 := by
    rw [Real.log_div (by norm_num) (by norm_num),
      show (6 : ℝ) = 2 * 3 by norm_num, Real.log_mul (by norm_num) (by norm_num)]
  have h4 : Real.log ((2 : ℝ) / 3) = Real.log 2 - Real.log 3 := by
    rw [Real.log_div (by norm_num) (by norm_num)]
  simp only [jsDivergence, List.sum_cons, List.sum_nil, List.map_cons, List.map_nil,
    List.zipWith_cons_cons, List.zipWith_nil_right, relEntr]
  norm_num
  rw [h1, h2, h3, h4]
  ring

theorem jsDivergence_step_bounds :
    0 < jsDivergence [(1 : ℝ), 1] [3, 1] ∧ jsDivergence [(1 : ℝ), 1] [3, 1] < 1 := by
  have hlog2 : (0 : ℝ) < Real.log 2 := Real.log_pos (by norm_num)
  have hkey1 : 5 * Real.log 5 < 12 * Real.log 2 := by
    have h := Real.log_lt_log (x := (3125 : ℝ)) (by norm_num) (by norm_num : (3125 : ℝ) < 4096)
    rw [show (3125 : ℝ) = 5 ^ 5 by norm_num, show (4096 : ℝ) = 2 ^ 12 by norm_num,
      Real.log_pow, Real.log_pow] at h
    push_cast at h
    linarith
  have hkey2 : 4 * Real.log 2 < 5 * Real.log 5 := by
    have h := Real.log_lt_log (x := (16 : ℝ)) (by norm_num) (by norm_num : (16 : ℝ) < 3125)
    rw [show (16 : ℝ) = 2 ^ 4 by norm_num, show (3125 : ℝ) = 5 ^ 5 by norm_num,
      Real.log_pow, Real.log_pow] at h
    push_cast at h
    linarith
  rw [jsDivergence_step_eq]
  constructor
  · apply div_pos (div_pos (by linarith) hlog2) (by norm_num)
  · rw [div_div, div_lt_one (by positivity)]
    linarith

/-- C2 counterexample: at the step-density instance over two valid samples,
`score_representativeness` differs from the divergence-based reading of the spec
(the claim as stated): here the Jensen-Shannon divergence lies strictly
between 0 and 1, so its square root — what the source subtracts from 1 — is
strictly larger than the divergence itself. -/
theorem score_representativeness_ne_spec :
    validSample [0, 1] ∧ validSample [0, 1, 1]
    ∧ score_representativeness kdeStep [0, 1] [0, 1, 1] 2
      ≠ score_representativeness_spec kdeStep [0, 1] [0, 1, 1] 2 := by
  refine ⟨by unfold validSample; decide, by unfold validSample; decide, ?_⟩
  obtain ⟨hb0, hb1⟩ := jsDivergence_step_bounds
  have hcode : score_representativeness kdeStep [0, 1] [0, 1, 1] 2
      = 1 - Real.sqrt (jsDivergence [(1 : ℝ), 1] [3, 1]) := by
    unfold score_representativeness
    rw [kdeStep_vec_p, kdeStep_vec_q, jensenshannon_two_eq_sqrt]
  have hspec : score_representativeness_spec kdeStep [0, 1] [0, 1, 1] 2
      = 1 - jsDivergence [(1 : ℝ), 1] [3, 1] := by
    unfold score_representativeness_spec
    rw [kdeStep_vec_p, kdeStep_vec_q]
  rw [hcode, hspec]
  intro he
  have heq : Real.sqrt (jsDivergence [(1 : ℝ), 1] [3, 1])
      = jsDivergence [(1 : ℝ), 1] [3, 1] := by linarith
  have hlt : jsDivergence [(1 : ℝ), 1] [3, 1]
      < Real.sqrt (jsDivergence [(1 : ℝ), 1] [3, 1]) := by
    rw [Real.lt_sqrt (le_of_lt hb0)]
    nlinarith
  linarith

theorem prescribed_splitter_label_error {σ : Type} (s : MOODSplitterState σ)
    (h : s.prescribedLabel = none) :
    prescribed_splitter_label s = Except.error "The splitter has not be fitted yet" := by
  unfold prescribed_splitter_label
  rw [h]

theorem get_prescribed_splitter_error {σ : Type} (s : MOODSplitterState σ)
    (h : s.prescribedLabel = none) :
    get_prescribed_splitter s = Except.error "The splitter has not be fitted yet" := by
  unfold get_prescribed_splitter
  rw [prescribed_splitter_label_error s h]

theorem iter_indices_error {σ : Type} (s : MOODSplitterState σ)
    (run : σ → List (List ℕ × List ℕ)) (h : s.prescribedLabel = none) :
    iter_indices s run = Except.error "The splitter has not be fitted yet" := by
  unfold iter_indices
  have hf : s.fitted = false := by
    unfold MOODSplitterState.fitted
    rw [h]
    rfl
  rw [hf]
  rfl

/-- A fit call that raises commits no result fields: the characterizations
and the prescribed label are left untouched. -/
theorem fit_error_preserves_results {σ : Type} (s : MOODSplitterState σ)
    (c : List ℝ) (f : String → σ → Except String SplitCharacterization)
    (h : (fit s c f).2.isSome) :
    (fit s c f).1.prescribedLabel = s.prescribedLabel
    ∧ (fit s c f).1.splitChars = s.splitChars := by
  unfold fit at h ⊢
  cases hev : evalCandidates f s.splitters with
  | error e => simp [hev]
  | ok chars =>
    cases hb : bestChar chars with
    | none => simp [hev, hb]
    | some cbest =>
      rw [hev] at h
      simp only [hb] at h
      simp at h

/-- A fit call that returns without raising has prescribed a label. -/
theorem fit_ok_sets_label {σ : Type} (s : MOODSplitterState σ)
    (c : List ℝ) (f : String → σ → Except String SplitCharacterization)
    (h : (fit s c f).2 = none) : (fit s c f).1.prescribedLabel.isSome := by
  unfold fit at h ⊢
  cases hev : evalCandidates f s.splitters with
  | error e => rw [hev] at h; simp at h
  | ok chars =>
    cases hb : bestChar chars with
    | none =>
      rw [hev] at h
      simp only [hb] at h
      simp at h
    | some cbest => simp [hev, hb]

/-- Theorem: `fit` computes and stores the downstream sample only when none is
stored. -/
theorem fit_stores_downstream {σ : Type} (s : MOODSplitterState σ)
    (c : List ℝ) (f : String → σ → Except String SplitCharacterization)
    (h : s.downstreamDistances = none) :
    (fit s c f).1.downstreamDistances = some c := by
  unfold fit
  rw [h]
  cases hev : evalCandidates f s.splitters with
  | error e => simp
  | ok chars =>
    cases hb : bestChar chars with
    | none => simp [hb]
    | some cbest => simp [hb]

/-- With a stored downstream sample, `fit` keeps it unchanged and its result
does not depend on the computed deployment distances at all. -/
theorem fit_reuses_downstream {σ : Type} (s : MOODSplitterState σ)
    (d c c2 : List ℝ) (f : String → σ → Except String SplitCharacterization)
    (h : s.downstreamDistances = some d) :
    (fit s c f).1.downstreamDistances = some d ∧ fit s c f = fit s c2 f := by
  unfold fit
  rw [h]
  cases hev : evalCandidates f s.splitters with
  | error e => simp
  | ok chars =>
    cases hb : bestChar chars with
    | none => simp [hb]
    | some cbest => simp [hb]

/-- C1 (amended): for every PerimeterSplit trial, the concatenation of the
returned train and test index lists is a permutation of the full index
range `0..N-1` (every sample in exactly one of the two); for every
MaxDissimilaritySplit trial the same holds provided the clustering produced
at least two distinct de-duplicated centers (rows of a rectangular center
matrix).  With a single de-duplicated center the source instead duplicates
every sample (see `maxdissim_coverage_counterexample`). -/
theorem splitter_coverage :
    (∀ (xs : List (List ℚ)) (nTest : ℕ),
      ((perimeterTrial xs nTest).1 ++ (perimeterTrial xs nTest).2).Perm
        (List.range xs.length))
    ∧ (∀ (xs : List (List ℚ)) (nTrain nTest d : ℕ),
      (∀ r ∈ xs, r.length = d) → 2 ≤ (npUniqueRows xs).length →
      ((maxDissimTrial xs nTrain nTest).1 ++ (maxDissimTrial xs nTrain nTest).2).Perm
        (List.range xs.length)) :=
  ⟨perimeterTrial_cover,
   fun xs nTrain nTest d hd hM => maxDissimTrial_cover xs nTrain nTest d hd hM⟩

theorem splitter_coverage_witness :
    ((perimeterTrial exElevenRows 1).1 ++ (perimeterTrial exElevenRows 1).2).Perm
      (List.range exElevenRows.length)
    ∧ ((maxDissimTrial exElevenRows 5 3).1 ++ (maxDissimTrial exElevenRows 5 3).2).Perm
      (List.range exElevenRows.length) :=
  ⟨splitter_coverage.1 exElevenRows 1,
   splitter_coverage.2 exElevenRows 5 3 1 (by decide) (by decide)⟩

/-- C1 counterexample: on the four-sample input whose clustering returned
the same center for every sample, the MaxDissimilaritySplit trial yields
train and test lists whose concatenation is not a permutation of `0..3`
(every index appears in both lists). -/
theorem maxdissim_coverage_counterexample :
    ¬ (((maxDissimTrial constCenters4 3 1).1
        ++ (maxDissimTrial constCenters4 3 1).2).Perm (List.range 4)) := by
  rw [maxDissimTrial_const4]
  intro h
  have hlen := h.length_eq
  simp at hlen

/-- C3 (amended): the greedy pair-consumption loop stops as soon as the
accumulated test size reaches or exceeds the target after assigning a whole
cluster *pair*, so the test-set size exceeds the target by strictly less
than the combined size of two clusters: it stays below
`n_test + 2 * (largest group size)`. -/
theorem perimeter_overshoot_bound (xs : List (List ℚ)) (nTest : ℕ) (h : 0 < nTest) :
    (perimeterTrial xs nTest).2.length < nTest + 2 * maxGroupSize xs := by
  have hb := perimeterTrial_length xs nTest
  omega

theorem perimeter_overshoot_bound_witness :
    (perimeterTrial exElevenRows 1).2.length < 1 + 2 * maxGroupSize exElevenRows :=
  perimeter_overshoot_bound exElevenRows 1 (by decide)

/-- C3 counterexample: with eleven samples in groups of sizes 5, 5 and 1 and
target test size 1, the first consumed pair moves both five-sample groups
into the test set: the 10 test samples exceed the target by more than the
size of any single cluster (the largest group holds 5 samples). -/
theorem perimeter_overshoot_counterexample :
    ¬ ((perimeterTrial exElevenRows 1).2.length ≤ 1 + maxGroupSize exElevenRows) := by
  rw [perimeterTrial_ex11]
  decide

theorem perimeter_no_overlap_witness :
    (groupIndicesOf exElevenRows).getD 10 0 ≠ (groupIndicesOf exElevenRows).getD 5 0 :=
  perimeterTrial_no_overlap exElevenRows 1 10 (by rw [perimeterTrial_ex11]; decide)
    5 (by rw [perimeterTrial_ex11]; decide)

/-- C4: in every MaxDissimilaritySplit trial over at least two distinct
de-duplicated groups, the test anchor attains the maximal mean pairwise
distance to all other groups, the train anchor attains the maximal pairwise
distance from the test anchor, and the train and test lists of the trial are
seeded with exactly the member samples of the two anchor groups. -/
theorem maxdissim_anchor_selection (xs : List (List ℚ)) (nTrain nTest d : ℕ)
    (hd : ∀ r ∈ xs, r.length = d) (hM : 2 ≤ (npUniqueRows xs).length) :
    (∀ g < (npUniqueRows xs).length,
      meanDistToOthers (npUniqueRows xs) g
        ≤ meanDistToOthers (npUniqueRows xs) (testAnchorIdx (npUniqueRows xs)))
    ∧ (∀ g < (npUniqueRows xs).length,
      distMatEntry (npUniqueRows xs) (testAnchorIdx (npUniqueRows xs)) g
        ≤ distMatEntry (npUniqueRows xs) (testAnchorIdx (npUniqueRows xs))
            (trainAnchorIdx (npUniqueRows xs)))
    ∧ (∃ rest, (maxDissimTrial xs nTrain nTest).1
        = membersOf (groupIndicesOf xs) (trainAnchorIdx (npUniqueRows xs)) ++ rest)
    ∧ (∃ rest, (maxDissimTrial xs nTrain nTest).2
        = membersOf (groupIndicesOf xs) (testAnchorIdx (npUniqueRows xs)) ++ rest) := by
  obtain ⟨htest_lt, htrain_lt, hne⟩ := anchor_facts xs d hd hM
  refine ⟨?_, ?_, ?_, ?_⟩
  · intro g hg
    have hspec := npArgmax_spec
      ((List.range (npUniqueRows xs).length).map fun j => colMean (npUniqueRows xs) j)
      g (by simpa using hg)
    rw [getD_map_range hg] at hspec
    have harg : testAnchorIdx (npUniqueRows xs)
        = npArgmax ((List.range (npUniqueRows xs).length).map
            fun j => colMean (npUniqueRows xs) j) := rfl
    rw [← harg, getD_map_range htest_lt] at hspec
    exact (meanDistToOthers_le_iff (npUniqueRows xs) hM hg htest_lt).2 hspec
  · intro g hg
    have hspec := npArgmax_spec
      ((List.range (npUniqueRows xs).length).map fun j =>
        distMatEntry (npUniqueRows xs) (testAnchorIdx (npUniqueRows xs)) j)
      g (by simpa using hg)
    rw [getD_map_range hg] at hspec
    have harg : trainAnchorIdx (npUniqueRows xs)
        = npArgmax ((List.range (npUniqueRows xs).length).map
            fun j => distMatEntry (npUniqueRows xs) (testAnchorIdx (npUniqueRows xs)) j) := rfl
    rw [← harg, getD_map_range htrain_lt] at hspec
    exact hspec
  · obtain ⟨U, h1, _, _, _⟩ := maxDissimTrial_parts xs nTrain nTest d hd hM
    exact ⟨U.flatMap (membersOf (groupIndicesOf xs)), by rw [h1]; simp⟩
  · obtain ⟨U, _, h2, _, _⟩ := maxDissimTrial_parts xs nTrain nTest d hd hM
    exact ⟨_, h2⟩

theorem maxdissim_anchor_selection_witness :
    meanDistToOthers (npUniqueRows exElevenRows) 0
      ≤ meanDistToOthers (npUniqueRows exElevenRows)
          (testAnchorIdx (npUniqueRows exElevenRows)) :=
  (maxdissim_anchor_selection exElevenRows 5 3 1 (by decide) (by decide)).1 0 (by decide)

/-- C9: on the four-sample input whose clustering yields a single
de-duplicated cluster center, test anchor and train anchor coincide and the
MaxDissimilaritySplit trial places every sample index in both the returned
train and test lists: both equal the full index range `[0, 1, 2, 3]`. -/
theorem maxdissim_single_group_overlap :
    (npUniqueRows constCenters4).length = 1
    ∧ maxDissimTrial constCenters4 3 1 = ([0, 1, 2, 3], [0, 1, 2, 3]) :=
  ⟨rfl, maxDissimTrial_const4⟩

/-- C2 (amended): for every density estimator and pair of samples,
`score_representativeness` evaluates both density estimates on the shared
grid of `resolution` equally spaced points spanning the pooled minimum and
maximum, and returns 1 minus the base-2 Jensen-Shannon *distance* — the
square root of the base-2 Jensen-Shannon divergence, a quantity bounded in
[0, 1] — of the two evaluated, normalized density vectors. -/
theorem score_representativeness_formula (kde : List ℚ → ℚ → ℝ)
    (A B : List ℚ) (n : ℕ) (hn : 1 ≤ n) (hkde : ∀ s x, 0 < kde s x) :
    score_representativeness kde A B n
      = 1 - Real.sqrt (jsDivergence ((scoreGrid A B n).map (kde A))
          ((scoreGrid A B n).map (kde B)))
    ∧ 0 ≤ Real.sqrt (jsDivergence ((scoreGrid A B n).map (kde A))
          ((scoreGrid A B n).map (kde B)))
    ∧ Real.sqrt (jsDivergence ((scoreGrid A B n).map (kde A))
          ((scoreGrid A B n).map (kde B))) ≤ 1 := by
  refine ⟨?_, Real.sqrt_nonneg _, ?_⟩
  · unfold score_representativeness
    rw [jensenshannon_two_eq_sqrt]
  · rw [Real.sqrt_le_one]
    have hlen : ((scoreGrid A B n).map (kde A)).length = n := by
      rw [List.length_map, scoreGrid_length]
    apply jsDivergence_le_one
    · intro x hx
      obtain ⟨a, _, rfl⟩ := List.mem_map.1 hx
      exact hkde A a
    · intro x hx
      obtain ⟨a, _, rfl⟩ := List.mem_map.1 hx
      exact hkde B a
    · apply List.ne_nil_of_length_pos
      rw [hlen]
      omega
    · apply List.ne_nil_of_length_pos
      rw [List.length_map, scoreGrid_length]
      omega
    · rw [List.length_map, List.length_map]

theorem score_representativeness_formula_witness :
    score_representativeness (fun s x => 1) [0, 1] [0, 2] 2
      = 1 - Real.sqrt (jsDivergence
          ((scoreGrid [0, 1] [0, 2] 2).map ((fun s x => (1 : ℝ)) [0, 1]))
          ((scoreGrid [0, 1] [0, 2] 2).map ((fun s x => (1 : ℝ)) [0, 2])))
    ∧ 0 ≤ Real.sqrt (jsDivergence
          ((scoreGrid [0, 1] [0, 2] 2).map ((fun s x => (1 : ℝ)) [0, 1]))
          ((scoreGrid [0, 1] [0, 2] 2).map ((fun s x => (1 : ℝ)) [0, 2])))
    ∧ Real.sqrt (jsDivergence
          ((scoreGrid [0, 1] [0, 2] 2).map ((fun s x => (1 : ℝ)) [0, 1]))
          ((scoreGrid [0, 1] [0, 2] 2).map ((fun s x => (1 : ℝ)) [0, 2]))) ≤ 1 :=
  score_representativeness_formula (fun s x => 1) [0, 1] [0, 2] 2 (by decide)
    (fun s x => by norm_num)

/-- C5: score_representativeness is symmetric in its two (valid) samples:
the grid depends only on the pooled values and the scipy Jensen-Shannon
distance is symmetric. -/
theorem score_representativeness_symm (kde : List ℚ → ℚ → ℝ) (A B : List ℚ) (n : ℕ)
    (hA : validSample A) (hB : validSample B) :
    score_representativeness kde A B n = score_representativeness kde B A n := by
  unfold score_representativeness
  rw [scoreGrid_comm]
  rw [jensenshannon_comm]

theorem score_representativeness_symm_witness :
    score_representativeness (fun s x => 1) [0, 1] [0, 2] 100
      = score_representativeness (fun s x => 1) [0, 2] [0, 1] 100 :=
  score_representativeness_symm (fun s x => 1) [0, 1] [0, 2] 100
    (by unfold validSample; decide) (by unfold validSample; decide)

/-- C6: score_representativeness of a (valid) sample against itself is
exactly 1: both density vectors coincide, so the Jensen-Shannon distance
vanishes. -/
theorem score_representativeness_self (kde : List ℚ → ℚ → ℝ) (A : List ℚ) (n : ℕ)
    (hA : validSample A) :
    score_representativeness kde A A n = 1 := by
  unfold score_representativeness
  rw [jensenshannon_self]
  ring

theorem score_representativeness_self_witness :
    score_representativeness (fun s x => 1) [0, 1] [0, 1] 100 = 1 :=
  score_representativeness_self (fun s x => 1) [0, 1] 100
    (by unfold validSample; decide)

/-- C8 (amended): every accessor requiring a prescribed strategy
(`prescribed_splitter_label`, `get_prescribed_splitter`, index iteration)
fails with the not-fitted error while no fit has completed (prescribed
label unset); a fit call that raises leaves the prescribed label and the
characterizations exactly as they were — an unfit splitter stays unfit and
its accessors keep failing — and a fit call that returns without raising
leaves the splitter fitted.  The one mutation a failing fit does commit is
the downstream distance sample computed at the start of the call (see
`fit_commits_downstream_counterexample`). -/
theorem moodsplitter_fit_gating :
    (∀ (σ : Type) (s : MOODSplitterState σ) (run : σ → List (List ℕ × List ℕ)),
      s.prescribedLabel = none →
      prescribed_splitter_label s = Except.error "The splitter has not be fitted yet"
      ∧ get_prescribed_splitter s = Except.error "The splitter has not be fitted yet"
      ∧ iter_indices s run = Except.error "The splitter has not be fitted yet")
    ∧ (∀ (σ : Type) (s : MOODSplitterState σ) (c : List ℝ)
        (f : String → σ → Except String SplitCharacterization),
      (fit s c f).2.isSome →
      (fit s c f).1.prescribedLabel = s.prescribedLabel
      ∧ (fit s c f).1.splitChars = s.splitChars)
    ∧ (∀ (σ : Type) (s : MOODSplitterState σ) (c : List ℝ)
        (f : String → σ → Except String SplitCharacterization),
      (fit s c f).2 = none → (fit s c f).1.prescribedLabel.isSome) :=
  ⟨fun σ s run h => ⟨prescribed_splitter_label_error s h,
    get_prescribed_splitter_error s h, iter_indices_error s run h⟩,
   fun σ s c f h => fit_error_preserves_results s c f h,
   fun σ s c f h => fit_ok_sets_label s c f h⟩

theorem moodsplitter_fit_gating_witness :
    prescribed_splitter_label failState
      = Except.error "The splitter has not be fitted yet"
    ∧ (fit failState [1] (fun n sp => Except.error "boom")).1.prescribedLabel
      = failState.prescribedLabel
    ∧ (fit failState [1]
        (fun n sp => Except.ok ⟨[], 0, n⟩)).1.prescribedLabel.isSome :=
  ⟨(moodsplitter_fit_gating.1 Unit failState (fun u => []) rfl).1,
   (moodsplitter_fit_gating.2.1 Unit failState [1] (fun n sp => Except.error "boom")
      (by rfl)).1,
   moodsplitter_fit_gating.2.2 Unit failState [1] (fun n sp => Except.ok ⟨[], 0, n⟩)
      (by rfl)⟩

/-- C8 counterexample: a fit call that raises still commits one piece of
state — the downstream distance sample computed at the start of the call —
so the claimed "no partial results committed" does not hold verbatim: the
stored downstream sample of the unfit splitter changed from `None` to the
computed value. -/
theorem fit_commits_downstream_counterexample :
    (fit failState [1] (fun n sp => Except.error "boom")).2 = some "boom"
    ∧ failState.downstreamDistances = none
    ∧ (fit failState [1]
        (fun n sp => Except.error "boom")).1.downstreamDistances = some [1] :=
  ⟨rfl, rfl, rfl⟩

/-- C10: `fit` computes and stores the downstream distance sample only when
none is currently stored; once a sample is stored, every subsequent fit
call keeps it unchanged and the entire fit result is independent of the
deployment-derived distances (the `X_deployment` argument is ignored). -/
theorem fit_downstream_frame :
    (∀ (σ : Type) (s : MOODSplitterState σ) (c : List ℝ)
        (f : String → σ → Except String SplitCharacterization),
      s.downstreamDistances = none → (fit s c f).1.downstreamDistances = some c)
    ∧ (∀ (σ : Type) (s : MOODSplitterState σ) (d c c2 : List ℝ)
        (f : String → σ → Except String SplitCharacterization),
      s.downstreamDistances = some d →
      (fit s c f).1.downstreamDistances = some d ∧ fit s c f = fit s c2 f) :=
  ⟨fun σ s c f h => fit_stores_downstream s c f h,
   fun σ s d c c2 f h => fit_reuses_downstream s d c c2 f h⟩

theorem fit_downstream_frame_witness :
    (fit failState [1] (fun n sp => Except.error "boom")).1.downstreamDistances = some [1]
    ∧ fit storedState [1] (fun n sp => Except.error "boom")
      = fit storedState [3] (fun n sp => Except.error "boom") :=
  ⟨fit_downstream_frame.1 Unit failState [1] (fun n sp => Except.error "boom") rfl,
   (fit_downstream_frame.2 Unit storedState [2] [1] [3]
      (fun n sp => Except.error "boom") rfl).2⟩

end MoodSplit

